import Mathlib

/-!
Verification model of the columnar merge engine (tantivy columnar `merge` module).

The merge implementation itself (`merge_columnar`, `group_columns_for_merge`,
`StackMergeOrder`, …) is exercised by `src/columnar/src/columnar/merge/tests.rs`
but its body is not part of the provided sources, so the definitions below are
modelled from the specification (spec.md §3, §4.1–§4.5, §8), restricted to the
fragment the claims exercise: Numerical, Bytes and Str column categories, and
the `Stack` row order.
-/

namespace ColumnarMerge

/-- A byte string (term), each entry one byte value. -/
abbrev ByteStr := List Nat

/-- Strict byte-lexicographic order on byte strings. -/
def byteLt : ByteStr → ByteStr → Bool
  | [], [] => false
  | [], _ :: _ => true
  | _ :: _, [] => false
  | a :: as, b :: bs => decide (a < b) || (decide (a = b) && byteLt as bs)

/-- Modelled from the spec (§4.2): a numerical value as recorded in a column,
tagged with its representation (signed 64-bit, unsigned 64-bit, or floating).
Floating payloads in the claims are integer-valued, so the payload is an `Int`. -/
inductive NumericalValue where
  | nI64 (v : Int)
  | nU64 (v : Nat)
  | nF64 (v : Int)
  deriving DecidableEq, Repr

/-- Modelled from the spec (§3): the column types exercised by the claims. -/
inductive ColumnType where
  | i64
  | u64
  | f64
  | bytesT
  | strT
  deriving DecidableEq, Repr

/-- Modelled from the spec (§3): coercion categories (the fragment used by the
claims; Bool/DateTime/IpAddr are not exercised). -/
inductive ColumnTypeCategory where
  | numerical
  | bytesCat
  | strCat
  deriving DecidableEq, Repr

/-- Category of a declared column type (spec §3: numeric subtypes share the
Numerical category). -/
def ColumnType.category : ColumnType → ColumnTypeCategory
  | .i64 => .numerical
  | .u64 => .numerical
  | .f64 => .numerical
  | .bytesT => .bytesCat
  | .strT => .strCat

/-- Numeric code of a category, in the spec's §3 declaration order
(Numerical, Bytes, String). Used for the deterministic (name, category)
iteration order of §4.1. -/
def ColumnTypeCategory.code : ColumnTypeCategory → Nat
  | .numerical => 0
  | .bytesCat => 1
  | .strCat => 2

/-- The char codes of a column name (names are compared by their code
sequences). -/
def strBytes (s : String) : List Nat := s.data.map Char.toNat

/-- Lexicographic order on column names by char code. -/
def strLt (a b : String) : Bool := byteLt (strBytes a) (strBytes b)

/-- The deterministic group-key order of §4.1: sorted by (name, category). -/
def keyLt (a b : String × ColumnTypeCategory) : Bool :=
  strLt a.1 b.1 || (decide (a.1 = b.1) && decide (a.2.code < b.2.code))

/-- Modelled from the spec (§3): per-column cardinality. -/
inductive Cardinality where
  | full
  | optional
  | multivalued
  deriving DecidableEq, Repr

/-- Permissiveness code: Full is strictest, Multivalued most permissive. -/
def Cardinality.scode : Cardinality → Nat
  | .full => 0
  | .optional => 1
  | .multivalued => 2

/-- Most permissive of two cardinalities. -/
def cardMax (a b : Cardinality) : Cardinality :=
  if a.scode ≤ b.scode then b else a

/-- Modelled from the spec (§4.4 step 4): infer a cardinality from the
number of values each row holds: any row with more than one value forces
Multivalued, else any empty row forces Optional, else Full. -/
def computedCardinality (lens : List Nat) : Cardinality :=
  if lens.any (fun l => 2 ≤ l) then .multivalued
  else if lens.any (fun l => l == 0) then .optional
  else .full

/-- Modelled from the spec (§3, §6): the body of one per-segment column:
numerical columns store the values of each row; dictionary-backed columns
(Bytes/Str) store a sorted term dictionary plus, per row, ordinals into it. -/
inductive ColumnData where
  | numericalData (rows : List (List NumericalValue))
  | dictData (dict : List ByteStr) (rows : List (List Nat))
  deriving DecidableEq, Repr

/-- Modelled from the spec (§3, §6): one declared column of a segment. -/
structure Column where
  name : String
  ctype : ColumnType
  data : ColumnData
  deriving DecidableEq, Repr

/-- Modelled from the spec (§3): an immutable opened segment: a row count and
the ordered list of its declared columns. -/
structure Segment where
  numRows : Nat
  columns : List Column
  deriving DecidableEq, Repr

/-- Concatenation of a list of blocks (used for stacking row blocks and for
collecting values across segments). -/
def concatRows : List (List α) → List α
  | [] => []
  | b :: rest => b ++ concatRows rest

/-- Insert into a strictly `lt`-sorted deduplicated list, keeping it sorted
and deduplicated. -/
def insertSorted [DecidableEq α] (lt : α → α → Bool) (x : α) : List α → List α
  | [] => [x]
  | y :: rest =>
    if x = y then y :: rest
    else if lt x y then x :: y :: rest
    else y :: insertSorted lt x rest

/-- Sort a list by `lt` and remove duplicates. -/
def sortDedup [DecidableEq α] (lt : α → α → Bool) (xs : List α) : List α :=
  xs.foldr (insertSorted lt) []

/-- Does this value fit the i64 representation without loss? A floating value
never counts as fitting an integer representation (spec §4.2: any floating
value forces f64). -/
def valueFitsI64 : NumericalValue → Bool
  | .nI64 _ => true
  | .nU64 v => v ≤ 2 ^ 63 - 1
  | .nF64 _ => false

/-- Does this value fit the u64 representation without loss? -/
def valueFitsU64 : NumericalValue → Bool
  | .nI64 v => 0 ≤ v
  | .nU64 _ => true
  | .nF64 _ => false

/-- Modelled from the spec (§4.2): is this value representable without loss
under a forced output type? Non-numeric forced types carry no value-level
constraint (category compatibility is checked separately). -/
def valueLosslessUnder (v : NumericalValue) : ColumnType → Bool
  | .i64 => valueFitsI64 v
  | .u64 => valueFitsU64 v
  | .f64 => true
  | .bytesT => true
  | .strT => true

/-- Modelled from the spec (§4.2): unified numeric representation from the
union of the values actually seen: i64 if all fit, else u64 if all fit,
else f64. -/
def resolveNumerical (vals : List NumericalValue) : ColumnType :=
  if vals.all valueFitsI64 then .i64
  else if vals.all valueFitsU64 then .u64
  else .f64

/-- All numerical values recorded in a column (empty for dictionary columns). -/
def Column.numValues (c : Column) : List NumericalValue :=
  match c.data with
  | .numericalData rows => concatRows rows
  | .dictData _ _ => []

/-- The term dictionary of an input column (empty for numerical columns). -/
def Column.dictTerms (c : Column) : List ByteStr :=
  match c.data with
  | .numericalData _ => []
  | .dictData d _ => d

/-- A group key: (column name, coercion category) — spec §3. -/
abbrev GroupKey := String × ColumnTypeCategory

/-- Modelled from the spec (§3): the unit of merge work: the forced output
type when a required override exists, and one `Option Column` per input
segment, in input order. -/
structure GroupedColumnsHandle where
  forced : Option ColumnType
  columns : List (Option Column)
  deriving DecidableEq, Repr

/-- Modelled from the spec (§7): the error kinds the claims exercise. -/
inductive MergeError where
  | invalidConfiguration
  deriving DecidableEq, Repr

/-- The required override for a column name, if any. -/
def overrideFor (required : List (String × ColumnType)) (n : String) : Option ColumnType :=
  (required.find? fun p => decide (p.1 = n)).map fun p => p.2

/-- Modelled from the spec (§4.1, §4.2): a column conflicts with a forced type
when its category differs from the forced type's category, or some recorded
value would be lossy under the forced type. -/
def columnConflictsWith (t : ColumnType) (c : Column) : Bool :=
  !(decide (c.ctype.category = t.category)) ||
    c.numValues.any fun v => !(valueLosslessUnder v t)

/-- Modelled from the spec (§4.1 failure clause, §4.2): does some required
override conflict with an actually-present column of that name? -/
def overrideConflict (segments : List Segment) (required : List (String × ColumnType)) : Bool :=
  required.any fun p =>
    segments.any fun s => s.columns.any fun c =>
      decide (c.name = p.1) && columnConflictsWith p.2 c

/-- All (name, category) keys declared by the input segments, in input order. -/
def segmentKeys (segments : List Segment) : List GroupKey :=
  concatRows (segments.map fun s => s.columns.map fun c => (c.name, c.ctype.category))

/-- The keys contributed by required overrides. -/
def requiredKeys (required : List (String × ColumnType)) : List GroupKey :=
  required.map fun p => (p.1, p.2.category)

/-- Modelled from the spec (§4.1): the deterministic, (name, category)-sorted,
deduplicated list of group keys. -/
def mergeKeys (segments : List Segment) (required : List (String × ColumnType)) :
    List GroupKey :=
  sortDedup keyLt (segmentKeys segments ++ requiredKeys required)

/-- The column of a segment matching a (name, category) key, if any. -/
def columnLookup (s : Segment) (n : String) (cat : ColumnTypeCategory) : Option Column :=
  s.columns.find? fun c => decide (c.name = n) && decide (c.ctype.category = cat)

/-- Modelled from the spec (§4.1): group the segments' columns by
(name, category), honouring required overrides: a conflicting override is an
`InvalidConfiguration` error; otherwise each key maps to a handle holding one
entry per segment (`none` where the segment lacks the column). -/
def group_columns_for_merge (segments : List Segment)
    (required : List (String × ColumnType)) :
    Except MergeError (List (GroupKey × GroupedColumnsHandle)) :=
  if overrideConflict segments required then .error .invalidConfiguration
  else .ok <| (mergeKeys segments required).map fun k =>
    (k, { forced := overrideFor required k.1,
          columns := segments.map fun s => columnLookup s k.1 k.2 })

/-- Modelled from the spec (§3, §4.3): the `Stack` row order carries the
prefix-summed cumulated row ids of the input segments, in input order. -/
structure StackMergeOrder where
  cumulatedRowIds : List Nat
  deriving DecidableEq, Repr

/-- Build the stack order for a list of segments by prefix-summing their row
counts. -/
def StackMergeOrder.stack (segments : List Segment) : StackMergeOrder :=
  { cumulatedRowIds :=
      (segments.map Segment.numRows).foldl (fun acc n => acc ++ [acc.getLastD 0 + n]) [] }

/-- The total number of output rows declared by a stack order. -/
def StackMergeOrder.numRows (o : StackMergeOrder) : Nat :=
  o.cumulatedRowIds.getLastD 0

/-- Modelled from the spec (§3): the merge row order (the claims exercise only
the `Stack` variant). -/
inductive MergeRowOrder where
  | stackOrder (o : StackMergeOrder)

/-- Pad or cut a block of rows to exactly `n` rows (identity on well-formed
columns, whose row count always equals the segment's row count). -/
def fitLength (n : Nat) (rows : List (List α)) : List (List α) :=
  rows.take n ++ List.replicate (n - rows.length) []

/-- The block of numerical rows a segment contributes to a merged column:
its own rows when the column is present, all-empty rows otherwise
(spec §4.4: an absent column contributes zero values for every row). -/
def numericalBlock (s : Segment) (oc : Option Column) : List (List NumericalValue) :=
  match oc with
  | some c =>
    match c.data with
    | .numericalData rows => fitLength s.numRows rows
    | .dictData _ _ => List.replicate s.numRows []
  | none => List.replicate s.numRows []

/-- Index of a term in a dictionary (its ordinal). -/
def ordOf (dict : List ByteStr) (t : ByteStr) : Nat :=
  match dict with
  | [] => 0
  | u :: rest => if t = u then 0 else ordOf rest t + 1

/-- The per-segment dictionaries contributing to a group (empty for absent or
non-dictionary entries). -/
def groupDicts (handle : List (Option Column)) : List (List ByteStr) :=
  handle.map fun oc =>
    match oc with
    | some c => c.dictTerms
    | none => []

/-- Modelled from the spec (§3, §4.4 step 2): the merged dictionary: the
byte-lexicographically sorted, deduplicated union of the contributing
segments' dictionaries. -/
def mergedDictOf (handle : List (Option Column)) : List ByteStr :=
  sortDedup byteLt (concatRows (groupDicts handle))

/-- The block of ordinal rows a segment contributes to a merged dictionary
column, with each old per-segment ordinal remapped to the ordinal of the same
term in the merged dictionary (spec §4.4 step 2–3). -/
def dictBlock (mergedDict : List ByteStr) (s : Segment) (oc : Option Column) :
    List (List Nat) :=
  match oc with
  | some c =>
    match c.data with
    | .dictData d rows =>
      fitLength s.numRows (rows.map fun row => row.map fun o => ordOf mergedDict (d.getD o []))
    | .numericalData _ => List.replicate s.numRows []
  | none => List.replicate s.numRows []

/-- Modelled from the spec (§3, §4.4 step 5): one merged output column. -/
structure MergedColumn where
  name : String
  ctype : ColumnType
  cardinality : Cardinality
  data : ColumnData
  deriving DecidableEq, Repr

/-- Modelled from the spec (§6): the merged store: its row count and its
columns in deterministic group order. -/
structure MergedStore where
  numDocs : Nat
  columns : List MergedColumn
  deriving DecidableEq, Repr

/-- All numerical values seen across a group's contributing segments. -/
def handleNumValues (handle : List (Option Column)) : List NumericalValue :=
  concatRows (handle.map fun oc =>
    match oc with
    | some c => c.numValues
    | none => [])

/-- The number of values each row of a column body holds. -/
def rowLens : ColumnData → List Nat
  | .numericalData rows => rows.map List.length
  | .dictData _ rows => rows.map List.length

/-- Modelled from the spec (§3 Cardinality invariant, §4.4 step 4): the merged
cardinality: inferred from the merged rows, and forced to at least Optional
when the column is absent from some segment (Full is inferred only when true
for every contributing segment and no absent segments). -/
def groupCardinality (handle : List (Option Column)) (data : ColumnData) : Cardinality :=
  let base := computedCardinality (rowLens data)
  if handle.any (fun oc => oc.isNone) then cardMax .optional base else base

/-- Modelled from the spec (§4.4): merge one group into one output column:
resolve the unified representation, stack the per-segment blocks in input
order (remapping dictionary ordinals), and infer the merged cardinality. -/
def mergeGroup (segments : List Segment) (k : GroupKey) (h : GroupedColumnsHandle) :
    MergedColumn :=
  match k.2 with
  | .numerical =>
    let vals := handleNumValues h.columns
    let t := match h.forced with
      | some t => t
      | none => resolveNumerical vals
    let data := ColumnData.numericalData
      (concatRows ((segments.zip h.columns).map fun p => numericalBlock p.1 p.2))
    { name := k.1, ctype := t, cardinality := groupCardinality h.columns data, data := data }
  | .bytesCat =>
    let d := mergedDictOf h.columns
    let data := ColumnData.dictData d
      (concatRows ((segments.zip h.columns).map fun p => dictBlock d p.1 p.2))
    { name := k.1, ctype := .bytesT, cardinality := groupCardinality h.columns data,
      data := data }
  | .strCat =>
    let d := mergedDictOf h.columns
    let data := ColumnData.dictData d
      (concatRows ((segments.zip h.columns).map fun p => dictBlock d p.1 p.2))
    { name := k.1, ctype := .strT, cardinality := groupCardinality h.columns data,
      data := data }

/-- Modelled from the spec (§4.5): the merge orchestrator: group the columns,
then merge every group in deterministic order into the output store, whose
row count is the row order's total. -/
def merge_columnar (segments : List Segment) (required : List (String × ColumnType))
    (order : MergeRowOrder) : Except MergeError MergedStore :=
  match group_columns_for_merge segments required with
  | .error e => .error e
  | .ok groups =>
    match order with
    | .stackOrder o =>
      .ok { numDocs := o.numRows,
            columns := groups.map fun g => mergeGroup segments g.1 g.2 }

/-- Number of values the merged column holds for an output row. -/
def MergedColumn.numValsAt (c : MergedColumn) (r : Nat) : Nat :=
  (rowLens c.data).getD r 0

/-- First numerical value of an output row, if any (the `first` accessor of a
numeric column reader). -/
def MergedColumn.firstNum (c : MergedColumn) (r : Nat) : Option NumericalValue :=
  match c.data with
  | .numericalData rows => (rows.getD r []).head?
  | .dictData _ _ => none

/-- Term ordinals of an output row of a dictionary column. -/
def MergedColumn.termOrds (c : MergedColumn) (r : Nat) : List Nat :=
  match c.data with
  | .numericalData _ => []
  | .dictData _ rows => rows.getD r []

/-- The terms of an output row of a dictionary column, looked up through the
merged dictionary. -/
def MergedColumn.termsAt (c : MergedColumn) (r : Nat) : List ByteStr :=
  match c.data with
  | .numericalData _ => []
  | .dictData d rows => (rows.getD r []).map fun o => d.getD o []

/-- The merged columns carrying a given name, in store order (the
`read_columns` accessor). -/
def MergedStore.readColumns (st : MergedStore) (n : String) : List MergedColumn :=
  st.columns.filter fun c => decide (c.name = n)

/-- Output row offset of input segment `i` under the stack order: the sum of
the earlier segments' row counts. -/
def offsetUpto (segments : List Segment) (i : Nat) : Nat :=
  ((segments.take i).map Segment.numRows).sum

/-- Writer model: a numerical column with an explicitly declared type, holding
the given values per row. -/
def mkNumericalColumn (n : String) (t : ColumnType) (rows : List (List NumericalValue)) :
    Column :=
  { name := n, ctype := t, data := .numericalData rows }

/-- Writer model: a dictionary column body built from raw per-row terms: the
dictionary is the sorted deduplicated set of recorded terms, and each row
stores the ordinals of its terms. -/
def mkDictData (rowTerms : List (List ByteStr)) : ColumnData :=
  let d := sortDedup byteLt (concatRows rowTerms)
  .dictData d (rowTerms.map fun row => row.map (ordOf d))

/-- Writer model: a bytes column built from raw per-row terms. -/
def mkBytesColumn (n : String) (rowTerms : List (List ByteStr)) : Column :=
  { name := n, ctype := .bytesT, data := mkDictData rowTerms }

/-- Writer model: a string column built from raw per-row terms. -/
def mkStrColumn (n : String) (rowTerms : List (List ByteStr)) : Column :=
  { name := n, ctype := .strT, data := mkDictData rowTerms }

/-- Inferred cardinality of an input column, from its own rows. -/
def Column.cardinality (c : Column) : Cardinality :=
  computedCardinality (rowLens c.data)

/-- Is a term dictionary strictly byte-lexicographically sorted? -/
def strictSorted : List ByteStr → Bool
  | [] => true
  | [_] => true
  | a :: b :: rest => byteLt a b && strictSorted (b :: rest)

/-- Well-formedness of one column inside a segment of `n` rows: the body kind
matches the declared type's category, the body has exactly `n` rows, and a
dictionary body is strictly sorted with all ordinals in range. -/
def Column.wf (n : Nat) (c : Column) : Bool :=
  match c.data with
  | .numericalData rows =>
    decide (c.ctype.category = .numerical) && decide (rows.length = n)
  | .dictData d rows =>
    (decide (c.ctype.category = .bytesCat) || decide (c.ctype.category = .strCat)) &&
      decide (rows.length = n) && strictSorted d &&
      rows.all fun row => row.all fun o => decide (o < d.length)

/-- Well-formedness of a segment: every column is well formed and no two
columns share a (name, category) key. -/
def Segment.wf (s : Segment) : Bool :=
  (s.columns.all fun c => c.wf s.numRows) &&
    ((s.columns.map fun c => (c.name, c.ctype.category)).Pairwise fun a b => a ≠ b)

/-- Well-formedness of a whole merge input. -/
def segmentsWF (segments : List Segment) : Bool :=
  segments.all Segment.wf

/-- The merged store of a successful merge (a default empty store on error). -/
def mergeOk (segments : List Segment) (required : List (String × ColumnType))
    (order : MergeRowOrder) : MergedStore :=
  match merge_columnar segments required order with
  | .ok st => st
  | .error _ => { numDocs := 0, columns := [] }

/-- The grouping of a successful `group_columns_for_merge` (empty on error). -/
def groupsOk (segments : List Segment) (required : List (String × ColumnType)) :
    List (GroupKey × GroupedColumnsHandle) :=
  match group_columns_for_merge segments required with
  | .ok g => g
  | .error _ => []

/-- Default segment used with `List.getD`. -/
def dfltSegment : Segment := { numRows := 0, columns := [] }

/-- Default merged column used with `List.getD`. -/
def dfltMergedColumn : MergedColumn :=
  { name := "", ctype := .i64, cardinality := .full, data := .numericalData [] }

/-- Is this column body numerical? -/
def ColumnData.isNumericalKind : ColumnData → Bool
  | .numericalData _ => true
  | .dictData _ _ => false

/-- The category of the group a merged column was produced from: numerical for
a numerical body, the declared type's category for a dictionary body. -/
def MergedColumn.srcCat (c : MergedColumn) : ColumnTypeCategory :=
  match c.data with
  | .numericalData _ => .numerical
  | .dictData _ _ => c.ctype.category

/-- All numerical values recorded for a column name across the input
segments, in input order. -/
def numericalValuesFor (segments : List Segment) (n : String) : List NumericalValue :=
  concatRows (segments.map fun s =>
    concatRows (((s.columns.filter fun c =>
      decide (c.name = n) && decide (c.ctype.category = ColumnTypeCategory.numerical))).map
        Column.numValues))

/-- The canonical stack row order of a segment list. -/
def stackOf (segments : List Segment) : MergeRowOrder :=
  .stackOrder (.stack segments)

/-! Concrete input segments used by the closed claim instances, mirroring the
scenarios of `merge/tests.rs`. -/

/-- Segment A of the end-to-end numeric scenario: column "n" = [-1], one row. -/
def segN1 : Segment := { numRows := 1, columns := [mkNumericalColumn "n" .f64 [[.nF64 (-1)]]] }

/-- Segment B of the end-to-end numeric scenario: column "n" = [], [-3]. -/
def segN2 : Segment :=
  { numRows := 2, columns := [mkNumericalColumn "n" .f64 [[], [.nF64 (-3)]]] }

/-- A one-row segment declaring "numbers" as i64 with value 1. -/
def segI : Segment := { numRows := 1, columns := [mkNumericalColumn "numbers" .i64 [[.nI64 1]]] }

/-- A one-row segment declaring "numbers" as i64 with value -1. -/
def segINeg : Segment :=
  { numRows := 1, columns := [mkNumericalColumn "numbers" .i64 [[.nI64 (-1)]]] }

/-- A one-row segment declaring "numbers" as u64 with value u64::MAX. -/
def segU : Segment :=
  { numRows := 1, columns := [mkNumericalColumn "numbers" .u64 [[.nU64 (2 ^ 64 - 1)]]] }

/-- A two-row bytes segment: rows ["bbbb"], ["baaa"]. -/
def segB1 : Segment :=
  { numRows := 2, columns := [mkBytesColumn "bytes" [[[98, 98, 98, 98]], [[98, 97, 97, 97]]]] }

/-- A two-row bytes segment: rows [], ["a"]. -/
def segB2 : Segment := { numRows := 2, columns := [mkBytesColumn "bytes" [[], [[97]]]] }

/-- A one-row text segment: column "mixed" = ["a"]. -/
def segT1 : Segment := { numRows := 1, columns := [mkStrColumn "mixed" [[[97]]]] }

/-- A two-row text segment: column "mixed" = [], ["b"]. -/
def segT2 : Segment := { numRows := 2, columns := [mkStrColumn "mixed" [[], [[98]]]] }

/-- A one-row numeric segment: column "mixed" = [1]. -/
def segM3 : Segment := { numRows := 1, columns := [mkNumericalColumn "mixed" .i64 [[.nI64 1]]] }

/-- A three-row segment declaring no columns at all. -/
def segEmptyCols : Segment := { numRows := 3, columns := [] }

/-! General lemmas about the list helpers. -/

theorem mem_concatRows {α : Type} (x : α) :
    ∀ ls : List (List α), x ∈ concatRows ls ↔ ∃ l ∈ ls, x ∈ l := by
  intro ls
  induction ls with
  | nil => simp [concatRows]
  | cons b rest ih => simp [concatRows, ih]

theorem length_concatRows {α : Type} :
    ∀ ls : List (List α), (concatRows ls).length = (ls.map List.length).sum := by
  intro ls
  induction ls with
  | nil => rfl
  | cons b rest ih => simp [concatRows, ih]

theorem map_concatRows {α β : Type} (f : α → β) :
    ∀ ls : List (List α), (concatRows ls).map f = concatRows (ls.map (List.map f)) := by
  intro ls
  induction ls with
  | nil => rfl
  | cons b rest ih => simp [concatRows, ih]

theorem zip_map_self {α β : Type} (g : α → β) :
    ∀ l : List α, l.zip (l.map g) = l.map fun a => (a, g a) := by
  intro l
  induction l with
  | nil => rfl
  | cons a l ih => simp [ih]

theorem filter_map_comm {α β : Type} (f : α → β) (p : β → Bool) :
    ∀ l : List α, (l.map f).filter p = (l.filter fun a => p (f a)).map f := by
  intro l
  induction l with
  | nil => rfl
  | cons a l ih =>
    by_cases h : p (f a) = true
    · simp [List.filter_cons, h, ih]
    · simp only [List.map_cons, List.filter_cons, h]
      simpa [h] using ih

theorem getD_replicate_nil {α : Type} (n r : Nat) :
    (List.replicate n ([] : List α)).getD r [] = [] := by
  rcases lt_or_ge r n with h | h
  · rw [List.getD_eq_getElem _ _ (by simpa using h)]
    simp
  · rw [List.getD_eq_default]
    simpa using h

theorem length_fitLength {α : Type} (n : Nat) (rows : List (List α)) :
    (fitLength n rows).length = n := by
  simp only [fitLength, List.length_append, List.length_take, List.length_replicate]
  omega

theorem fitLength_eq_of_length {α : Type} (n : Nat) (rows : List (List α))
    (h : rows.length = n) : fitLength n rows = rows := by
  simp [fitLength, h, List.take_of_length_le (le_of_eq h)]

/-! Lemmas about sorted deduplicating insertion. -/

theorem mem_insertSorted {α : Type} [DecidableEq α] (lt : α → α → Bool) (x a : α) :
    ∀ l : List α, a ∈ insertSorted lt x l ↔ a = x ∨ a ∈ l := by
  intro l
  induction l with
  | nil => simp [insertSorted]
  | cons y rest ih =>
    by_cases hxy : x = y
    · subst hxy
      simp only [insertSorted, if_true, List.mem_cons, eq_self_iff_true]
      tauto
    · by_cases hlt : lt x y = true
      · simp only [insertSorted, if_neg hxy, if_pos hlt, List.mem_cons]
      · simp only [insertSorted, if_neg hxy, if_neg hlt, List.mem_cons, ih]
        tauto

theorem mem_sortDedup {α : Type} [DecidableEq α] (lt : α → α → Bool) (a : α) :
    ∀ xs : List α, a ∈ sortDedup lt xs ↔ a ∈ xs := by
  intro xs
  induction xs with
  | nil => simp [sortDedup]
  | cons x rest ih =>
    simp only [sortDedup, List.foldr_cons, List.mem_cons]
    rw [mem_insertSorted]
    simp only [sortDedup] at ih
    rw [ih]

theorem sorted_insertSorted {α : Type} [DecidableEq α] (lt : α → α → Bool)
    (htr : ∀ a b c, lt a b = true → lt b c = true → lt a c = true)
    (hconn : ∀ a b : α, a ≠ b → lt a b = true ∨ lt b a = true)
    (x : α) :
    ∀ l : List α, l.Pairwise (fun a b => lt a b = true) →
      (insertSorted lt x l).Pairwise (fun a b => lt a b = true) := by
  intro l
  induction l with
  | nil => simp [insertSorted]
  | cons y rest ih =>
    intro hs
    rw [List.pairwise_cons] at hs
    obtain ⟨hy, hrest⟩ := hs
    by_cases hxy : x = y
    · subst hxy
      simp only [insertSorted, if_pos rfl]
      exact List.pairwise_cons.2 ⟨hy, hrest⟩
    · by_cases hlt : lt x y = true
      · simp only [insertSorted, if_neg hxy, if_pos hlt]
        refine List.pairwise_cons.2 ⟨?_, List.pairwise_cons.2 ⟨hy, hrest⟩⟩
        intro b hb
        rcases List.mem_cons.1 hb with rfl | hb
        · exact hlt
        · exact htr _ _ _ hlt (hy b hb)
      · have hyx : lt y x = true := by
          rcases hconn x y hxy with h | h
          · exact absurd h hlt
          · exact h
        simp only [insertSorted, if_neg hxy, if_neg hlt]
        refine List.pairwise_cons.2 ⟨?_, ih hrest⟩
        intro b hb
        rcases (mem_insertSorted lt x b rest).1 hb with rfl | hb
        · exact hyx
        · exact hy b hb

theorem sorted_sortDedup {α : Type} [DecidableEq α] (lt : α → α → Bool)
    (htr : ∀ a b c, lt a b = true → lt b c = true → lt a c = true)
    (hconn : ∀ a b : α, a ≠ b → lt a b = true ∨ lt b a = true) :
    ∀ xs : List α, (sortDedup lt xs).Pairwise (fun a b => lt a b = true) := by
  intro xs
  induction xs with
  | nil => simp [sortDedup]
  | cons x rest ih => exact sorted_insertSorted lt htr hconn x _ ih

theorem nodup_of_sortedB {α : Type} (lt : α → α → Bool)
    (hirr : ∀ a, lt a a = false) (l : List α)
    (hs : l.Pairwise (fun a b => lt a b = true)) : l.Nodup := by
  refine hs.imp ?_
  intro a b hab
  intro heq
  subst heq
  rw [hirr a] at hab
  exact Bool.false_ne_true hab

/-! Order properties of the byte-lexicographic and group-key orders. -/

theorem byteLt_irrefl : ∀ l : ByteStr, byteLt l l = false
  | [] => rfl
  | a :: as => by simp [byteLt, byteLt_irrefl as]

theorem byteLt_trans : ∀ a b c : ByteStr,
    byteLt a b = true → byteLt b c = true → byteLt a c = true := by
  intro a
  induction a with
  | nil =>
    intro b c hab hbc
    cases b with
    | nil => simp [byteLt] at hab
    | cons y bs =>
      cases c with
      | nil => simp [byteLt] at hbc
      | cons z cs => simp [byteLt]
  | cons x as ih =>
    intro b c hab hbc
    cases b with
    | nil => simp [byteLt] at hab
    | cons y bs =>
      cases c with
      | nil => simp [byteLt] at hbc
      | cons z cs =>
        simp only [byteLt, Bool.or_eq_true, Bool.and_eq_true, decide_eq_true_eq] at hab hbc ⊢
        rcases hab with h1 | ⟨he1, h1⟩
        · rcases hbc with h2 | ⟨he2, h2⟩
          · exact Or.inl (Nat.lt_trans h1 h2)
          · exact Or.inl (he2 ▸ h1)
        · rcases hbc with h2 | ⟨he2, h2⟩
          · exact Or.inl (he1 ▸ h2)
          · exact Or.inr ⟨he1.trans he2, ih bs cs h1 h2⟩

theorem byteLt_conn : ∀ a b : ByteStr, a ≠ b → byteLt a b = true ∨ byteLt b a = true := by
  intro a
  induction a with
  | nil =>
    intro b hne
    cases b with
    | nil => exact absurd rfl hne
    | cons y bs =>
      left
      simp [byteLt]
  | cons x as ih =>
    intro b hne
    cases b with
    | nil =>
      right
      simp [byteLt]
    | cons y bs =>
      by_cases hxy : x = y
      · subst hxy
        have hne' : as ≠ bs := by
          intro h
          exact hne (by rw [h])
        rcases ih bs hne' with h | h
        · left
          simp [byteLt, h]
        · right
          simp [byteLt, h]
      · rcases Nat.lt_or_ge x y with h | h
        · left
          simp [byteLt, h]
        · have hyx : y < x := Nat.lt_of_le_of_ne h fun he => hxy he.symm
          right
          simp [byteLt, hyx]

theorem strLt_irrefl (a : String) : strLt a a = false := byteLt_irrefl _

theorem strLt_trans (a b c : String) (h1 : strLt a b = true) (h2 : strLt b c = true) :
    strLt a c = true := byteLt_trans _ _ _ h1 h2

theorem charToNat_inj : Function.Injective Char.toNat := by
  intro a b h
  rw [← Char.ofNat_toNat a, h, Char.ofNat_toNat]

theorem strBytes_inj (a b : String) (h : strBytes a = strBytes b) : a = b := by
  have hd : a.data = b.data := List.map_injective_iff.2 charToNat_inj h
  cases a
  cases b
  rw [show (String.mk _ = String.mk _) ↔ _ from String.ext_iff]
  simpa using hd

theorem strLt_conn (a b : String) (h : a ≠ b) : strLt a b = true ∨ strLt b a = true :=
  byteLt_conn _ _ fun he => h (strBytes_inj a b he)

theorem keyLt_irrefl (k : GroupKey) : keyLt k k = false := by
  simp [keyLt, strLt_irrefl]

theorem keyLt_trans (a b c : GroupKey) (hab : keyLt a b = true) (hbc : keyLt b c = true) :
    keyLt a c = true := by
  simp only [keyLt, Bool.or_eq_true, Bool.and_eq_true, decide_eq_true_eq] at hab hbc ⊢
  rcases hab with h1 | ⟨he1, h1⟩ <;> rcases hbc with h2 | ⟨he2, h2⟩
  · exact Or.inl (strLt_trans _ _ _ h1 h2)
  · exact Or.inl (he2 ▸ h1)
  · exact Or.inl (he1 ▸ h2)
  · exact Or.inr ⟨he1.trans he2, Nat.lt_trans h1 h2⟩

theorem keyLt_conn (a b : GroupKey) (hne : a ≠ b) :
    keyLt a b = true ∨ keyLt b a = true := by
  obtain ⟨a1, a2⟩ := a
  obtain ⟨b1, b2⟩ := b
  by_cases h1 : a1 = b1
  · subst h1
    have h2 : a2 ≠ b2 := by
      intro h
      exact hne (by rw [h])
    have hc : a2.code ≠ b2.code := by
      cases a2 <;> cases b2 <;> simp_all [ColumnTypeCategory.code]
    rcases Nat.lt_or_ge a2.code b2.code with h | h
    · left
      simp [keyLt, h]
    · have hlt : b2.code < a2.code := Nat.lt_of_le_of_ne h fun he => hc he.symm
      right
      simp [keyLt, hlt]
  · rcases strLt_conn a1 b1 h1 with h | h
    · left
      simp [keyLt, h]
    · right
      simp [keyLt, h]

theorem strictSorted_of_pairwise :
    ∀ l : List ByteStr, l.Pairwise (fun a b => byteLt a b = true) → strictSorted l = true := by
  intro l
  induction l with
  | nil => intro _; rfl
  | cons a rest ih =>
    intro h
    rw [List.pairwise_cons] at h
    obtain ⟨ha, hrest⟩ := h
    cases rest with
    | nil => rfl
    | cons b rest2 =>
      simp only [strictSorted, Bool.and_eq_true]
      exact ⟨ha b (by simp), ih hrest⟩

/-! Lemmas about the stack row order and row offsets. -/

theorem stackFoldl_getLastD (ns : List Nat) :
    ∀ acc : List Nat,
      ((ns.foldl (fun acc n => acc ++ [acc.getLastD 0 + n]) acc).getLastD 0)
        = acc.getLastD 0 + ns.sum := by
  induction ns with
  | nil =>
    intro acc
    simp
  | cons n rest ih =>
    intro acc
    simp only [List.foldl_cons]
    rw [ih, List.getLastD_concat, List.sum_cons]
    omega

theorem stack_numRows (segments : List Segment) :
    (StackMergeOrder.stack segments).numRows = (segments.map Segment.numRows).sum := by
  show ((segments.map Segment.numRows).foldl
    (fun acc n => acc ++ [acc.getLastD 0 + n]) []).getLastD 0 = _
  rw [stackFoldl_getLastD]
  simp

theorem offsetUpto_zero (segments : List Segment) : offsetUpto segments 0 = 0 := rfl

theorem offsetUpto_succ (s : Segment) (rest : List Segment) (i : Nat) :
    offsetUpto (s :: rest) (i + 1) = s.numRows + offsetUpto rest i := by
  simp [offsetUpto]

theorem offsetUpto_add_lt (i r : Nat) :
    ∀ segments : List Segment, i < segments.length →
      r < (segments.getD i dfltSegment).numRows →
      offsetUpto segments i + r < (segments.map Segment.numRows).sum := by
  induction i with
  | zero =>
    intro segments hi hr
    cases segments with
    | nil => simp at hi
    | cons s rest =>
      simp only [List.getD_cons_zero] at hr
      simp only [offsetUpto_zero, List.map_cons, List.sum_cons]
      omega
  | succ i ih =>
    intro segments hi hr
    cases segments with
    | nil => simp at hi
    | cons s rest =>
      simp only [List.getD_cons_succ] at hr
      rw [offsetUpto_succ]
      simp only [List.map_cons, List.sum_cons]
      have := ih rest (by simpa using hi) hr
      omega

/-- Row `offsetUpto segments i + r` of stacked per-segment blocks is row `r`
of segment `i`'s block, provided each block has its segment's row count. -/
theorem stacked_getD {α : Type} (f : Segment → List (List α))
    (hf : ∀ s, (f s).length = s.numRows) :
    ∀ (segments : List Segment) (i r : Nat), i < segments.length →
      r < (segments.getD i dfltSegment).numRows →
      (concatRows (segments.map f)).getD (offsetUpto segments i + r) []
        = (f (segments.getD i dfltSegment)).getD r [] := by
  intro segments
  induction segments with
  | nil =>
    intro i r hi _
    simp at hi
  | cons s rest ih =>
    intro i r hi hr
    cases i with
    | zero =>
      simp only [List.getD_cons_zero] at hr ⊢
      simp only [List.map_cons, concatRows, offsetUpto_zero, Nat.zero_add]
      exact List.getD_append _ _ _ _ (by rw [hf s]; exact hr)
    | succ i =>
      simp only [List.getD_cons_succ] at hr ⊢
      simp only [List.map_cons, concatRows, offsetUpto_succ]
      rw [Nat.add_assoc, List.getD_append_right _ _ _ _ (by rw [hf s]; omega)]
      rw [hf s, Nat.add_sub_cancel_left]
      exact ih i r (by simpa using hi) hr

/-- Stacking blocks over segments paired with their looked-up columns is the
same as stacking blocks computed directly per segment. -/
theorem zip_blocks_eq {α : Type} (g : Segment → Option Column)
    (bf : Segment → Option Column → List (List α)) (segments : List Segment) :
    ((segments.zip (segments.map g)).map fun p => bf p.1 p.2)
      = segments.map fun s => bf s (g s) := by
  rw [zip_map_self, List.map_map]
  rfl

theorem length_numericalBlock (s : Segment) (oc : Option Column) :
    (numericalBlock s oc).length = s.numRows := by
  cases oc with
  | none => simp [numericalBlock]
  | some c =>
    cases hc : c.data with
    | numericalData rows => simp [numericalBlock, hc, length_fitLength]
    | dictData d rows => simp [numericalBlock, hc]

theorem length_dictBlock (d : List ByteStr) (s : Segment) (oc : Option Column) :
    (dictBlock d s oc).length = s.numRows := by
  cases oc with
  | none => simp [dictBlock]
  | some c =>
    cases hc : c.data with
    | numericalData rows => simp [dictBlock, hc]
    | dictData dc rows => simp [dictBlock, hc, length_fitLength]

/-! Structural lemmas about grouping and merging. -/

theorem group_columns_eq (segments : List Segment) (required : List (String × ColumnType))
    (h : overrideConflict segments required = false) :
    group_columns_for_merge segments required
      = .ok ((mergeKeys segments required).map fun k =>
          (k, { forced := overrideFor required k.1,
                columns := segments.map fun s => columnLookup s k.1 k.2 })) := by
  simp [group_columns_for_merge, h]

theorem group_columns_error_eq (segments : List Segment)
    (required : List (String × ColumnType)) (h : overrideConflict segments required = true) :
    group_columns_for_merge segments required = .error .invalidConfiguration := by
  simp [group_columns_for_merge, h]

theorem merge_columnar_eq (segments : List Segment) (required : List (String × ColumnType))
    (o : StackMergeOrder) (h : overrideConflict segments required = false) :
    merge_columnar segments required (.stackOrder o)
      = .ok { numDocs := o.numRows,
              columns := (mergeKeys segments required).map fun k =>
                mergeGroup segments k
                  { forced := overrideFor required k.1,
                    columns := segments.map fun s => columnLookup s k.1 k.2 } } := by
  rw [merge_columnar, group_columns_eq segments required h]
  simp

theorem merge_columnar_ok_elim (segments : List Segment)
    (required : List (String × ColumnType)) (o : StackMergeOrder) (st : MergedStore)
    (hm : merge_columnar segments required (.stackOrder o) = .ok st) :
    overrideConflict segments required = false ∧
      st = { numDocs := o.numRows,
             columns := (mergeKeys segments required).map fun k =>
               mergeGroup segments k
                 { forced := overrideFor required k.1,
                   columns := segments.map fun s => columnLookup s k.1 k.2 } } := by
  cases h : overrideConflict segments required with
  | true =>
    rw [merge_columnar, group_columns_error_eq segments required h] at hm
    cases hm
  | false =>
    rw [merge_columnar_eq segments required o h] at hm
    exact ⟨rfl, (Except.ok.inj hm).symm⟩

theorem mergeGroup_name (segments : List Segment) (k : GroupKey)
    (h : GroupedColumnsHandle) : (mergeGroup segments k h).name = k.1 := by
  rcases k with ⟨n, cat⟩
  cases cat <;> rfl

theorem mergeGroup_srcCat (segments : List Segment) (k : GroupKey)
    (h : GroupedColumnsHandle) : (mergeGroup segments k h).srcCat = k.2 := by
  rcases k with ⟨n, cat⟩
  cases cat <;> rfl

theorem mem_mergeKeys (segments : List Segment) (required : List (String × ColumnType))
    (k : GroupKey) :
    k ∈ mergeKeys segments required ↔
      k ∈ segmentKeys segments ∨ k ∈ requiredKeys required := by
  rw [mergeKeys, mem_sortDedup]
  exact List.mem_append

theorem mem_segmentKeys (segments : List Segment) (k : GroupKey) :
    k ∈ segmentKeys segments ↔
      ∃ s ∈ segments, ∃ c ∈ s.columns, k = (c.name, c.ctype.category) := by
  rw [segmentKeys, mem_concatRows]
  constructor
  · rintro ⟨l, hl, hk⟩
    rw [List.mem_map] at hl
    obtain ⟨s, hs, rfl⟩ := hl
    rw [List.mem_map] at hk
    obtain ⟨c, hc, rfl⟩ := hk
    exact ⟨s, hs, c, hc, rfl⟩
  · rintro ⟨s, hs, c, hc, rfl⟩
    refine ⟨s.columns.map fun c => (c.name, c.ctype.category), ?_, ?_⟩
    · exact List.mem_map.2 ⟨s, hs, rfl⟩
    · exact List.mem_map.2 ⟨c, hc, rfl⟩

theorem nodup_mergeKeys (segments : List Segment) (required : List (String × ColumnType)) :
    (mergeKeys segments required).Nodup :=
  nodup_of_sortedB keyLt keyLt_irrefl _
    (sorted_sortDedup keyLt keyLt_trans keyLt_conn _)

/-- **C1.** For every list of input segments merged with `merge_columnar` under
the `Stack` row order, the merged store's row count (`num_docs`) equals the sum
of the input segments' row counts, in input order. -/
theorem stack_merge_row_count (segments : List Segment)
    (required : List (String × ColumnType)) (st : MergedStore)
    (hm : merge_columnar segments required (.stackOrder (.stack segments)) = .ok st) :
    st.numDocs = (segments.map Segment.numRows).sum := by
  obtain ⟨-, hst⟩ := merge_columnar_ok_elim segments required _ st hm
  rw [hst]
  exact stack_numRows segments

/-- Witness for C1 at the two-segment numeric scenario (1-row and 2-row
segments; merged row count 3). -/
theorem stack_merge_row_count_witness :
    merge_columnar [segN1, segN2] [] (.stackOrder (.stack [segN1, segN2]))
        = .ok (mergeOk [segN1, segN2] [] (.stackOrder (.stack [segN1, segN2]))) ∧
      (mergeOk [segN1, segN2] [] (.stackOrder (.stack [segN1, segN2]))).numDocs
        = ([segN1, segN2].map Segment.numRows).sum :=
  ⟨rfl, stack_merge_row_count [segN1, segN2] [] _ rfl⟩

theorem getD_map_of_lt {α β : Type} (f : α → β) (d : α) (d' : β) :
    ∀ (l : List α) (i : Nat), i < l.length →
      (l.map f).getD i d' = f (l.getD i d) := by
  intro l
  induction l with
  | nil =>
    intro i hi
    simp at hi
  | cons a rest ih =>
    intro i hi
    cases i with
    | zero => rfl
    | succ i =>
      simp only [List.map_cons, List.getD_cons_succ]
      exact ih i (by simpa using hi)

theorem columnLookup_eq_none (s : Segment) (n : String) (cat : ColumnTypeCategory) :
    columnLookup s n cat = none ↔
      ∀ c ∈ s.columns, ¬(c.name = n ∧ c.ctype.category = cat) := by
  rw [columnLookup, List.find?_eq_none]
  simp

theorem columnLookup_eq_some (s : Segment) (n : String) (cat : ColumnTypeCategory)
    (c : Column) (h : columnLookup s n cat = some c) :
    c ∈ s.columns ∧ c.name = n ∧ c.ctype.category = cat := by
  have hm := List.mem_of_find?_eq_some h
  have hp := List.find?_some h
  simp only [Bool.and_eq_true, decide_eq_true_eq] at hp
  exact ⟨hm, hp⟩

theorem group_columns_ok_elim (segments : List Segment)
    (required : List (String × ColumnType)) (groups : List (GroupKey × GroupedColumnsHandle))
    (hg : group_columns_for_merge segments required = .ok groups) :
    overrideConflict segments required = false ∧
      groups = (mergeKeys segments required).map fun k =>
        (k, { forced := overrideFor required k.1,
              columns := segments.map fun s => columnLookup s k.1 k.2 }) := by
  cases h : overrideConflict segments required with
  | true =>
    rw [group_columns_error_eq segments required h] at hg
    cases hg
  | false =>
    rw [group_columns_eq segments required h] at hg
    exact ⟨rfl, (Except.ok.inj hg).symm⟩

theorem overrideConflict_iff (segments : List Segment)
    (required : List (String × ColumnType)) :
    overrideConflict segments required = true ↔
      ∃ p ∈ required, ∃ s ∈ segments, ∃ c ∈ s.columns, c.name = p.1 ∧
        (¬c.ctype.category = p.2.category ∨
          ∃ v ∈ c.numValues, valueLosslessUnder v p.2 = false) := by
  simp only [overrideConflict, columnConflictsWith, List.any_eq_true, Bool.and_eq_true,
    Bool.or_eq_true, decide_eq_true_eq, Bool.not_eq_true', decide_eq_false_iff_not]

/-- **C3.** A required (name, type) override whose category is incompatible
with a column actually present under that name, or under which some
contributing value would be lossy, makes grouping return an
`InvalidConfiguration` error; every override compatible with all present
columns and values succeeds. -/
theorem required_override_validation (segments : List Segment)
    (required : List (String × ColumnType)) :
    (group_columns_for_merge segments required = .error .invalidConfiguration ↔
      ∃ p ∈ required, ∃ s ∈ segments, ∃ c ∈ s.columns, c.name = p.1 ∧
        (¬c.ctype.category = p.2.category ∨
          ∃ v ∈ c.numValues, valueLosslessUnder v p.2 = false)) ∧
    ((∃ groups, group_columns_for_merge segments required = .ok groups) ↔
      ¬∃ p ∈ required, ∃ s ∈ segments, ∃ c ∈ s.columns, c.name = p.1 ∧
        (¬c.ctype.category = p.2.category ∨
          ∃ v ∈ c.numValues, valueLosslessUnder v p.2 = false)) := by
  rw [← overrideConflict_iff]
  constructor
  · constructor
    · intro h
      cases hc : overrideConflict segments required with
      | true => rfl
      | false =>
        rw [group_columns_eq segments required hc] at h
        cases h
    · intro h
      exact group_columns_error_eq segments required h
  · constructor
    · rintro ⟨groups, hg⟩
      intro h
      rw [group_columns_error_eq segments required h] at hg
      cases hg
    · intro h
      have hc : overrideConflict segments required = false := by
        cases hc : overrideConflict segments required with
        | true => exact absurd hc h
        | false => rfl
      exact ⟨_, group_columns_eq segments required hc⟩

/-- **C6.** Every grouped handle's `columns` sequence has length exactly the
segment count, in input order, with `none` exactly at the positions of
segments lacking that (name, category); a required name present in no segment
still yields a group whose entries are all `none`. -/
theorem grouped_handle_shape (segments : List Segment)
    (required : List (String × ColumnType))
    (groups : List (GroupKey × GroupedColumnsHandle))
    (hg : group_columns_for_merge segments required = .ok groups) :
    (∀ kh ∈ groups, kh.2.columns.length = segments.length ∧
      ∀ i, i < segments.length →
        (kh.2.columns.getD i none = none ↔
          ∀ c ∈ (segments.getD i dfltSegment).columns,
            ¬(c.name = kh.1.1 ∧ c.ctype.category = kh.1.2))) ∧
    ∀ p ∈ required, (∀ s ∈ segments, ∀ c ∈ s.columns, c.name ≠ p.1) →
      ∃ h, ((p.1, p.2.category), h) ∈ groups ∧ ∀ e ∈ h.columns, e = none := by
  obtain ⟨-, hgr⟩ := group_columns_ok_elim segments required groups hg
  subst hgr
  constructor
  · intro kh hkh
    rw [List.mem_map] at hkh
    obtain ⟨k, hk, rfl⟩ := hkh
    refine ⟨by simp, ?_⟩
    intro i hi
    show (segments.map fun s => columnLookup s k.1 k.2).getD i none = none ↔ _
    rw [getD_map_of_lt (fun s => columnLookup s k.1 k.2) dfltSegment none segments i hi]
    exact columnLookup_eq_none _ _ _
  · intro p hp habsent
    refine ⟨{ forced := overrideFor required p.1,
              columns := segments.map fun s => columnLookup s p.1 p.2.category }, ?_, ?_⟩
    · have hk : ((p.1, p.2.category) : GroupKey) ∈ mergeKeys segments required := by
        rw [mem_mergeKeys]
        right
        exact List.mem_map.2 ⟨p, hp, rfl⟩
      exact List.mem_map.2 ⟨(p.1, p.2.category), hk, rfl⟩
    · intro e he
      have he' : e ∈ segments.map fun s => columnLookup s p.1 p.2.category := he
      rw [List.mem_map] at he'
      obtain ⟨s, hs, rfl⟩ := he'
      rw [columnLookup_eq_none]
      intro c hc hand
      exact habsent s hs c hc hand.1

/-- Witness for C6: a required Str column absent from both (numeric)
segments yields a group of two `none` entries. -/
theorem grouped_handle_shape_witness :
    group_columns_for_merge [segU, segU] [("required_col", ColumnType.strT)]
        = .ok (groupsOk [segU, segU] [("required_col", ColumnType.strT)]) ∧
      ((∀ kh ∈ groupsOk [segU, segU] [("required_col", ColumnType.strT)],
          kh.2.columns.length = ([segU, segU] : List Segment).length ∧
          ∀ i, i < ([segU, segU] : List Segment).length →
            (kh.2.columns.getD i none = none ↔
              ∀ c ∈ (([segU, segU] : List Segment).getD i dfltSegment).columns,
                ¬(c.name = kh.1.1 ∧ c.ctype.category = kh.1.2))) ∧
        ∀ p ∈ [("required_col", ColumnType.strT)],
          (∀ s ∈ ([segU, segU] : List Segment), ∀ c ∈ s.columns, c.name ≠ p.1) →
            ∃ h, ((p.1, p.2.category), h)
                ∈ groupsOk [segU, segU] [("required_col", ColumnType.strT)] ∧
              ∀ e ∈ h.columns, e = none) :=
  ⟨rfl, grouped_handle_shape [segU, segU] [("required_col", ColumnType.strT)] _ rfl⟩

theorem nodup_all_eq_singleton {α : Type} (a : α) :
    ∀ l : List α, l.Nodup → a ∈ l → (∀ x ∈ l, x = a) → l = [a] := by
  intro l hnd hmem hall
  cases l with
  | nil => cases hmem
  | cons x rest =>
    have hx : x = a := hall x (List.mem_cons_self x rest)
    subst hx
    cases rest with
    | nil => rfl
    | cons y r2 =>
      rw [List.nodup_cons] at hnd
      have hy : y = x := hall y (by simp)
      rw [hy] at hnd
      exact absurd (List.mem_cons_self x r2) hnd.1

/-- **C8.** When every column declared under a name across the segments has
the Numerical category (e.g. subtypes i64 and u64, or i64 and f64) and at
least one segment declares it, grouping with no overrides yields exactly one
group for that name, keyed (name, Numerical). -/
theorem numerical_subtypes_single_group (segments : List Segment) (n : String)
    (groups : List (GroupKey × GroupedColumnsHandle))
    (hg : group_columns_for_merge segments [] = .ok groups)
    (hall : ∀ s ∈ segments, ∀ c ∈ s.columns, c.name = n →
      c.ctype.category = ColumnTypeCategory.numerical)
    (hsome : ∃ s ∈ segments, ∃ c ∈ s.columns, c.name = n) :
    (groups.map Prod.fst).filter (fun k => decide (k.1 = n))
      = [(n, ColumnTypeCategory.numerical)] := by
  obtain ⟨-, hgr⟩ := group_columns_ok_elim segments [] groups hg
  subst hgr
  rw [List.map_map]
  rw [show (Prod.fst ∘ fun k => ((k : GroupKey),
      ({ forced := overrideFor [] k.1,
         columns := segments.map fun s => columnLookup s k.1 k.2 } :
           GroupedColumnsHandle))) = id from rfl]
  rw [List.map_id]
  apply nodup_all_eq_singleton
  · exact (nodup_mergeKeys segments []).filter _
  · rw [List.mem_filter]
    constructor
    · rw [mem_mergeKeys]
      left
      rw [mem_segmentKeys]
      obtain ⟨s, hs, col, hcol, hname⟩ := hsome
      refine ⟨s, hs, col, hcol, ?_⟩
      rw [hname, hall s hs col hcol hname]
    · simp
  · intro x hx
    rw [List.mem_filter] at hx
    obtain ⟨hmem, hn⟩ := hx
    rw [mem_mergeKeys] at hmem
    rcases hmem with hmem | hmem
    · rw [mem_segmentKeys] at hmem
      obtain ⟨s, hs, col, hcol, rfl⟩ := hmem
      simp only [decide_eq_true_eq] at hn
      have := hall s hs col hcol hn
      rw [Prod.mk.injEq]
      exact ⟨hn, this⟩
    · simp [requiredKeys] at hmem

/-- Witness for C8 at segments declaring "numbers" as i64 (value 1) and u64
(value u64::MAX). -/
theorem numerical_subtypes_single_group_witness :
    group_columns_for_merge [segI, segU] [] = .ok (groupsOk [segI, segU] []) ∧
      (∀ s ∈ ([segI, segU] : List Segment), ∀ c ∈ s.columns, c.name = "numbers" →
        c.ctype.category = ColumnTypeCategory.numerical) ∧
      (∃ s ∈ ([segI, segU] : List Segment), ∃ c ∈ s.columns, c.name = "numbers") ∧
      ((groupsOk [segI, segU] []).map Prod.fst).filter (fun k => decide (k.1 = "numbers"))
        = [("numbers", ColumnTypeCategory.numerical)] :=
  ⟨rfl, by decide, by decide,
    numerical_subtypes_single_group [segI, segU] "numbers" _ rfl (by decide) (by decide)⟩

/-! Well-formedness extraction lemmas. -/

theorem wf_segment_of_mem (segments : List Segment) (s : Segment)
    (hwf : segmentsWF segments = true) (hs : s ∈ segments) : s.wf = true := by
  rw [segmentsWF, List.all_eq_true] at hwf
  exact hwf s hs

theorem wf_column_of_mem (s : Segment) (c : Column) (hwf : s.wf = true)
    (hc : c ∈ s.columns) : c.wf s.numRows = true := by
  rw [Segment.wf, Bool.and_eq_true] at hwf
  have h := hwf.1
  rw [List.all_eq_true] at h
  exact h c hc

theorem wf_pairwise_keys (s : Segment) (hwf : s.wf = true) :
    (s.columns.map fun c => (c.name, c.ctype.category)).Pairwise (· ≠ ·) := by
  rw [Segment.wf, Bool.and_eq_true] at hwf
  exact of_decide_eq_true hwf.2

theorem wf_numerical_data (c : Column) (n : Nat) (hwf : c.wf n = true)
    (hcat : c.ctype.category = ColumnTypeCategory.numerical) :
    ∃ rows, c.data = .numericalData rows ∧ rows.length = n := by
  obtain ⟨nm, t, data⟩ := c
  cases data with
  | numericalData rows =>
    simp only [Column.wf, Bool.and_eq_true, decide_eq_true_eq] at hwf
    exact ⟨rows, rfl, hwf.2⟩
  | dictData d rows =>
    simp only [Column.wf, Bool.and_eq_true, Bool.or_eq_true, decide_eq_true_eq] at hwf
    simp only at hcat
    rcases hwf.1.1.1 with h | h <;> rw [hcat] at h <;> cases h

theorem wf_dict_data (c : Column) (n : Nat) (d : List ByteStr) (rows : List (List Nat))
    (hwf : c.wf n = true) (hd : c.data = .dictData d rows) : rows.length = n := by
  obtain ⟨nm, t, data⟩ := c
  cases data with
  | numericalData rows0 => cases hd
  | dictData d0 rows0 =>
    cases hd
    simp only [Column.wf, Bool.and_eq_true, decide_eq_true_eq] at hwf
    exact hwf.1.1.2

/-! Cardinality order lemmas. -/

theorem scode_le_cardMax_left (a b : Cardinality) : a.scode ≤ (cardMax a b).scode := by
  unfold cardMax
  by_cases h : a.scode ≤ b.scode
  · rw [if_pos h]
    exact h
  · rw [if_neg h]

theorem scode_le_cardMax_right (a b : Cardinality) : b.scode ≤ (cardMax a b).scode := by
  unfold cardMax
  by_cases h : a.scode ≤ b.scode
  · rw [if_pos h]
  · rw [if_neg h]
    omega

theorem computedCardinality_mono (l1 l2 : List Nat) (hsub : ∀ x ∈ l1, x ∈ l2) :
    (computedCardinality l1).scode ≤ (computedCardinality l2).scode := by
  have hany : ∀ p : Nat → Bool, l1.any p = true → l2.any p = true := by
    intro p h
    rw [List.any_eq_true] at h ⊢
    obtain ⟨x, hx, hp⟩ := h
    exact ⟨x, hsub x hx, hp⟩
  unfold computedCardinality
  by_cases hm : l1.any (fun l => 2 ≤ l) = true
  · rw [if_pos hm, if_pos (hany _ hm)]
  · rw [if_neg hm]
    by_cases ho : l1.any (fun l => l == 0) = true
    · rw [if_pos ho]
      by_cases hm2 : l2.any (fun l => 2 ≤ l) = true
      · rw [if_pos hm2]
        simp [Cardinality.scode]
      · rw [if_neg hm2, if_pos (hany _ ho)]
    · rw [if_neg ho]
      exact Nat.zero_le _

theorem base_le_groupCardinality (handle : List (Option Column)) (data : ColumnData) :
    (computedCardinality (rowLens data)).scode ≤ (groupCardinality handle data).scode := by
  unfold groupCardinality
  by_cases h : handle.any (fun oc => oc.isNone) = true
  · simp only [h, if_true]
    exact scode_le_cardMax_right _ _
  · simp only [h]
    rw [if_neg (by simp [h])]

theorem optional_le_groupCardinality_of_absent (handle : List (Option Column))
    (data : ColumnData) (h : handle.any (fun oc => oc.isNone) = true) :
    Cardinality.optional.scode ≤ (groupCardinality handle data).scode := by
  unfold groupCardinality
  rw [if_pos h]
  exact scode_le_cardMax_left _ _

theorem mergeGroup_cardinality (segments : List Segment) (k : GroupKey)
    (h : GroupedColumnsHandle) :
    (mergeGroup segments k h).cardinality
      = groupCardinality h.columns (mergeGroup segments k h).data := by
  rcases k with ⟨n, cat⟩
  cases cat <;> rfl

theorem getD_mem {α : Type} (l : List α) (i : Nat) (d : α) (hi : i < l.length) :
    l.getD i d ∈ l := by
  rw [List.getD_eq_getElem l d hi]
  exact List.getElem_mem hi

theorem mergeGroup_data_numerical (segments : List Segment) (n : String)
    (fr : Option ColumnType) (cols : List (Option Column)) :
    (mergeGroup segments (n, .numerical) { forced := fr, columns := cols }).data
      = .numericalData
          (concatRows ((segments.zip cols).map fun p => numericalBlock p.1 p.2)) := rfl

theorem mergeGroup_data_bytes (segments : List Segment) (n : String)
    (fr : Option ColumnType) (cols : List (Option Column)) :
    (mergeGroup segments (n, .bytesCat) { forced := fr, columns := cols }).data
      = .dictData (mergedDictOf cols)
          (concatRows ((segments.zip cols).map
            fun p => dictBlock (mergedDictOf cols) p.1 p.2)) := rfl

theorem mergeGroup_data_str (segments : List Segment) (n : String)
    (fr : Option ColumnType) (cols : List (Option Column)) :
    (mergeGroup segments (n, .strCat) { forced := fr, columns := cols }).data
      = .dictData (mergedDictOf cols)
          (concatRows ((segments.zip cols).map
            fun p => dictBlock (mergedDictOf cols) p.1 p.2)) := rfl

theorem length_stacked {α : Type} (f : Segment → List (List α))
    (hf : ∀ s, (f s).length = s.numRows) (segments : List Segment) :
    (concatRows (segments.map f)).length = (segments.map Segment.numRows).sum := by
  rw [length_concatRows, List.map_map]
  congr 1
  exact List.map_congr_left fun s _ => hf s

/-- A merged column reads zero values at every output row sourced from a
segment lacking the column. -/
theorem mergeGroup_numValsAt_absent (segments : List Segment) (n : String)
    (cat : ColumnTypeCategory) (fr : Option ColumnType) (i r : Nat)
    (hi : i < segments.length) (hr : r < (segments.getD i dfltSegment).numRows)
    (habs : columnLookup (segments.getD i dfltSegment) n cat = none) :
    (mergeGroup segments (n, cat)
      { forced := fr, columns := segments.map fun s => columnLookup s n cat }).numValsAt
        (offsetUpto segments i + r) = 0 := by
  have hlt : offsetUpto segments i + r < (segments.map Segment.numRows).sum :=
    offsetUpto_add_lt i r segments hi hr
  cases cat with
  | numerical =>
    rw [MergedColumn.numValsAt, mergeGroup_data_numerical,
      zip_blocks_eq (fun s => columnLookup s n .numerical) numericalBlock segments]
    simp only [rowLens]
    have hlen := length_stacked (fun s => numericalBlock s (columnLookup s n .numerical))
      (fun s => length_numericalBlock s _) segments
    rw [getD_map_of_lt List.length [] 0 _ _ (by rw [hlen]; exact hlt)]
    rw [stacked_getD (fun s => numericalBlock s (columnLookup s n .numerical))
      (fun s => length_numericalBlock s _) segments i r hi hr]
    rw [habs]
    simp [numericalBlock, getD_replicate_nil]
  | bytesCat =>
    rw [MergedColumn.numValsAt, mergeGroup_data_bytes,
      zip_blocks_eq (fun s => columnLookup s n .bytesCat)
        (dictBlock (mergedDictOf (segments.map fun s => columnLookup s n .bytesCat)))
        segments]
    simp only [rowLens]
    have hlen := length_stacked
      (fun s => dictBlock (mergedDictOf (segments.map fun s => columnLookup s n .bytesCat))
        s (columnLookup s n .bytesCat))
      (fun s => length_dictBlock _ s _) segments
    rw [getD_map_of_lt List.length [] 0 _ _ (by rw [hlen]; exact hlt)]
    rw [stacked_getD
      (fun s => dictBlock (mergedDictOf (segments.map fun s => columnLookup s n .bytesCat))
        s (columnLookup s n .bytesCat))
      (fun s => length_dictBlock _ s _) segments i r hi hr]
    rw [habs]
    simp [dictBlock, getD_replicate_nil]
  | strCat =>
    rw [MergedColumn.numValsAt, mergeGroup_data_str,
      zip_blocks_eq (fun s => columnLookup s n .strCat)
        (dictBlock (mergedDictOf (segments.map fun s => columnLookup s n .strCat)))
        segments]
    simp only [rowLens]
    have hlen := length_stacked
      (fun s => dictBlock (mergedDictOf (segments.map fun s => columnLookup s n .strCat))
        s (columnLookup s n .strCat))
      (fun s => length_dictBlock _ s _) segments
    rw [getD_map_of_lt List.length [] 0 _ _ (by rw [hlen]; exact hlt)]
    rw [stacked_getD
      (fun s => dictBlock (mergedDictOf (segments.map fun s => columnLookup s n .strCat))
        s (columnLookup s n .strCat))
      (fun s => length_dictBlock _ s _) segments i r hi hr]
    rw [habs]
    simp [dictBlock, getD_replicate_nil]

/-- **C10.** A segment declaring no columns at all still contributes its full
row count to the merged output row space, every merged column reads as absent
(zero values) for each row sourced from it, and the merge is never an error. -/
theorem empty_segment_contributes_rows (segments : List Segment) (i : Nat)
    (hi : i < segments.length)
    (hempty : (segments.getD i dfltSegment).columns = []) :
    ∃ st, merge_columnar segments [] (.stackOrder (.stack segments)) = .ok st ∧
      st.numDocs = (segments.map Segment.numRows).sum ∧
      ∀ c ∈ st.columns, ∀ r, r < (segments.getD i dfltSegment).numRows →
        c.numValsAt (offsetUpto segments i + r) = 0 := by
  have hconf : overrideConflict segments [] = false := rfl
  refine ⟨_, merge_columnar_eq segments [] _ hconf, ?_, ?_⟩
  · exact stack_numRows segments
  · intro c hc r hr
    rw [List.mem_map] at hc
    obtain ⟨k, hk, rfl⟩ := hc
    rcases k with ⟨n, cat⟩
    apply mergeGroup_numValsAt_absent segments n cat _ i r hi hr
    rw [columnLookup_eq_none, hempty]
    intro c hc
    cases hc

/-- Witness for C10: a 3-row segment with no columns stacked before a 2-row
bytes segment. -/
theorem empty_segment_contributes_rows_witness :
    0 < ([segEmptyCols, segB2] : List Segment).length ∧
      (([segEmptyCols, segB2] : List Segment).getD 0 dfltSegment).columns = [] ∧
      ∃ st, merge_columnar [segEmptyCols, segB2] []
            (.stackOrder (.stack [segEmptyCols, segB2])) = .ok st ∧
        st.numDocs = (([segEmptyCols, segB2] : List Segment).map Segment.numRows).sum ∧
        ∀ c ∈ st.columns, ∀ r,
          r < (([segEmptyCols, segB2] : List Segment).getD 0 dfltSegment).numRows →
          c.numValsAt (offsetUpto [segEmptyCols, segB2] 0 + r) = 0 :=
  ⟨by decide, rfl, empty_segment_contributes_rows [segEmptyCols, segB2] 0 (by decide) rfl⟩

theorem nodup_sub_pair_length {α : Type} (a b : α) (hab : a ≠ b) :
    ∀ l : List α, l.Nodup → a ∈ l → b ∈ l → (∀ x ∈ l, x = a ∨ x = b) → l.length = 2 := by
  intro l hnd ha hb hsub
  cases l with
  | nil => cases ha
  | cons x rest =>
    rw [List.nodup_cons] at hnd
    rcases hsub x (List.mem_cons_self x rest) with hx | hx
    · have hb' : b ∈ rest := by
        rcases List.mem_cons.1 hb with h | h
        · rw [hx] at h
          exact absurd h.symm hab
        · exact h
      have hrest : rest = [b] := by
        apply nodup_all_eq_singleton b rest hnd.2 hb'
        intro y hy
        rcases hsub y (List.mem_cons_of_mem _ hy) with h | h
        · rw [h, ← hx] at hy
          exact absurd hy hnd.1
        · exact h
      rw [hrest]
      rfl
    · have ha' : a ∈ rest := by
        rcases List.mem_cons.1 ha with h | h
        · rw [hx] at h
          exact absurd h hab
        · exact h
      have hrest : rest = [a] := by
        apply nodup_all_eq_singleton a rest hnd.2 ha'
        intro y hy
        rcases hsub y (List.mem_cons_of_mem _ hy) with h | h
        · exact h
        · rw [h, ← hx] at hy
          exact absurd hy hnd.1
      rw [hrest]
      rfl

/-- **C7.** When a column name appears under exactly two different categories
across the segments and no override is given, the merged store holds exactly
two output columns under that name, one per observed category, and each reads
as absent on every row sourced from a segment lacking that (name, category). -/
theorem mixed_categories_two_columns (segments : List Segment) (st : MergedStore)
    (n : String) (c1 c2 : ColumnTypeCategory)
    (hm : merge_columnar segments [] (.stackOrder (.stack segments)) = .ok st)
    (hne : c1 ≠ c2)
    (hall : ∀ s ∈ segments, ∀ c ∈ s.columns, c.name = n →
      c.ctype.category = c1 ∨ c.ctype.category = c2)
    (h1 : ∃ s ∈ segments, ∃ c ∈ s.columns, c.name = n ∧ c.ctype.category = c1)
    (h2 : ∃ s ∈ segments, ∃ c ∈ s.columns, c.name = n ∧ c.ctype.category = c2) :
    (st.readColumns n).length = 2 ∧
      (∃ c ∈ st.readColumns n, c.srcCat = c1) ∧
      (∃ c ∈ st.readColumns n, c.srcCat = c2) ∧
      ∀ c ∈ st.readColumns n, ∀ i, i < segments.length →
        columnLookup (segments.getD i dfltSegment) n c.srcCat = none →
        ∀ r, r < (segments.getD i dfltSegment).numRows →
          c.numValsAt (offsetUpto segments i + r) = 0 := by
  obtain ⟨-, rfl⟩ := merge_columnar_ok_elim segments [] _ st hm
  have hread : ∀ nd : Nat,
      (MergedStore.mk nd ((mergeKeys segments []).map fun k =>
        mergeGroup segments k
          { forced := overrideFor [] k.1,
            columns := segments.map fun s => columnLookup s k.1 k.2 })).readColumns n
      = ((mergeKeys segments []).filter fun k => decide (k.1 = n)).map fun k =>
          mergeGroup segments k
            { forced := overrideFor [] k.1,
              columns := segments.map fun s => columnLookup s k.1 k.2 } := by
    intro nd
    show (((mergeKeys segments []).map fun k =>
        mergeGroup segments k
          { forced := overrideFor [] k.1,
            columns := segments.map fun s => columnLookup s k.1 k.2 }).filter
              fun c => decide (c.name = n)) = _
    rw [filter_map_comm]
    congr 1
    apply List.filter_congr
    intro k _
    rw [mergeGroup_name]
  have hread := hread (StackMergeOrder.stack segments).numRows
  have hmem1 : ((n, c1) : GroupKey) ∈ mergeKeys segments [] := by
    rw [mem_mergeKeys]
    left
    rw [mem_segmentKeys]
    obtain ⟨s, hs, col, hcol, hnm, hcat⟩ := h1
    exact ⟨s, hs, col, hcol, by rw [hnm, hcat]⟩
  have hmem2 : ((n, c2) : GroupKey) ∈ mergeKeys segments [] := by
    rw [mem_mergeKeys]
    left
    rw [mem_segmentKeys]
    obtain ⟨s, hs, col, hcol, hnm, hcat⟩ := h2
    exact ⟨s, hs, col, hcol, by rw [hnm, hcat]⟩
  have hsub : ∀ x ∈ (mergeKeys segments []).filter fun k => decide (k.1 = n),
      x = ((n, c1) : GroupKey) ∨ x = ((n, c2) : GroupKey) := by
    intro x hx
    rw [List.mem_filter] at hx
    obtain ⟨hmem, hn⟩ := hx
    simp only [decide_eq_true_eq] at hn
    rw [mem_mergeKeys] at hmem
    rcases hmem with hmem | hmem
    · rw [mem_segmentKeys] at hmem
      obtain ⟨s, hs, col, hcol, rfl⟩ := hmem
      rcases hall s hs col hcol hn with h | h
      · left
        rw [Prod.mk.injEq]
        exact ⟨hn, h⟩
      · right
        rw [Prod.mk.injEq]
        exact ⟨hn, h⟩
    · simp [requiredKeys] at hmem
  refine ⟨?_, ?_, ?_, ?_⟩
  · rw [hread, List.length_map]
    apply nodup_sub_pair_length ((n, c1) : GroupKey) ((n, c2) : GroupKey)
      (by simp [Prod.mk.injEq, hne]) _ ((nodup_mergeKeys segments []).filter _)
      (List.mem_filter.2 ⟨hmem1, by simp⟩) (List.mem_filter.2 ⟨hmem2, by simp⟩) hsub
  · refine ⟨mergeGroup segments (n, c1)
      { forced := overrideFor [] n,
        columns := segments.map fun s => columnLookup s n c1 }, ?_, ?_⟩
    · rw [hread]
      exact List.mem_map.2 ⟨(n, c1), List.mem_filter.2 ⟨hmem1, by simp⟩, rfl⟩
    · exact mergeGroup_srcCat segments (n, c1) _
  · refine ⟨mergeGroup segments (n, c2)
      { forced := overrideFor [] n,
        columns := segments.map fun s => columnLookup s n c2 }, ?_, ?_⟩
    · rw [hread]
      exact List.mem_map.2 ⟨(n, c2), List.mem_filter.2 ⟨hmem2, by simp⟩, rfl⟩
    · exact mergeGroup_srcCat segments (n, c2) _
  · intro c hc i hi habs r hr
    rw [hread] at hc
    rw [List.mem_map] at hc
    obtain ⟨k, hkf, rfl⟩ := hc
    rw [List.mem_filter] at hkf
    obtain ⟨hk, hkn⟩ := hkf
    simp only [decide_eq_true_eq] at hkn
    rcases k with ⟨kn, kc⟩
    rw [mergeGroup_srcCat] at habs
    apply mergeGroup_numValsAt_absent segments kn kc _ i r hi hr
    rw [← hkn] at habs
    exact habs

/-- Witness for C7 at the mixed-type scenario: "mixed" is text in two
segments and numeric in a third. -/
theorem mixed_categories_two_columns_witness :
    merge_columnar [segT1, segT2, segM3] []
        (.stackOrder (.stack [segT1, segT2, segM3]))
        = .ok (mergeOk [segT1, segT2, segM3] []
            (.stackOrder (.stack [segT1, segT2, segM3]))) ∧
      (ColumnTypeCategory.numerical ≠ ColumnTypeCategory.strCat) ∧
      ((mergeOk [segT1, segT2, segM3] []
          (.stackOrder (.stack [segT1, segT2, segM3]))).readColumns "mixed").length = 2 ∧
      (∃ c ∈ (mergeOk [segT1, segT2, segM3] []
          (.stackOrder (.stack [segT1, segT2, segM3]))).readColumns "mixed",
        c.srcCat = ColumnTypeCategory.numerical) ∧
      (∃ c ∈ (mergeOk [segT1, segT2, segM3] []
          (.stackOrder (.stack [segT1, segT2, segM3]))).readColumns "mixed",
        c.srcCat = ColumnTypeCategory.strCat) ∧
      ∀ c ∈ (mergeOk [segT1, segT2, segM3] []
          (.stackOrder (.stack [segT1, segT2, segM3]))).readColumns "mixed",
        ∀ i, i < ([segT1, segT2, segM3] : List Segment).length →
        columnLookup (([segT1, segT2, segM3] : List Segment).getD i dfltSegment)
            "mixed" c.srcCat = none →
        ∀ r, r < (([segT1, segT2, segM3] : List Segment).getD i dfltSegment).numRows →
          c.numValsAt (offsetUpto [segT1, segT2, segM3] i + r) = 0 := by
  have h := mixed_categories_two_columns [segT1, segT2, segM3] _ "mixed"
    ColumnTypeCategory.numerical ColumnTypeCategory.strCat rfl (by decide)
    (by decide) (by decide) (by decide)
  exact ⟨rfl, by decide, h.1, h.2.1, h.2.2.1, h.2.2.2⟩

theorem wf_dict_data_exists (c : Column) (n : Nat) (hwf : c.wf n = true)
    (hcat : c.ctype.category = ColumnTypeCategory.bytesCat ∨
      c.ctype.category = ColumnTypeCategory.strCat) :
    ∃ d rows, c.data = .dictData d rows ∧ rows.length = n := by
  obtain ⟨nm, t, data⟩ := c
  cases data with
  | numericalData rows =>
    simp only [Column.wf, Bool.and_eq_true, decide_eq_true_eq] at hwf
    simp only at hcat
    rcases hcat with h | h <;> rw [hwf.1] at h <;> cases h
  | dictData d rows =>
    simp only [Column.wf, Bool.and_eq_true, decide_eq_true_eq] at hwf
    exact ⟨d, rows, rfl, hwf.1.1.2⟩

/-- **C5.** The merged cardinality is never stricter than any single
contributing segment's cardinality for that column, and a column absent from
at least one contributing segment has merged cardinality at least Optional. -/
theorem cardinality_monotonicity (segments : List Segment)
    (required : List (String × ColumnType)) (st : MergedStore) (c : MergedColumn)
    (i : Nat) (hwf : segmentsWF segments = true)
    (hm : merge_columnar segments required (.stackOrder (.stack segments)) = .ok st)
    (hc : c ∈ st.columns) (hi : i < segments.length) :
    (∀ col, columnLookup (segments.getD i dfltSegment) c.name c.srcCat = some col →
      col.cardinality.scode ≤ c.cardinality.scode) ∧
    (columnLookup (segments.getD i dfltSegment) c.name c.srcCat = none →
      Cardinality.optional.scode ≤ c.cardinality.scode) := by
  obtain ⟨-, rfl⟩ := merge_columnar_ok_elim segments required _ st hm
  have hc' : c ∈ (mergeKeys segments required).map (fun k => mergeGroup segments k
      { forced := overrideFor required k.1,
        columns := segments.map fun s => columnLookup s k.1 k.2 }) := hc
  rw [List.mem_map] at hc'
  obtain ⟨k, hk, rfl⟩ := hc'
  obtain ⟨kn, kc⟩ := k
  rw [mergeGroup_name, mergeGroup_srcCat]
  dsimp only
  constructor
  · intro col hlk
    rw [mergeGroup_cardinality]
    refine le_trans ?_ (base_le_groupCardinality _ _)
    refine computedCardinality_mono _ _ ?_
    intro x hx
    obtain ⟨hcolmem, hname, hcat⟩ := columnLookup_eq_some _ _ _ _ hlk
    have hswf := wf_segment_of_mem segments _ hwf (getD_mem segments i dfltSegment hi)
    have hcwf := wf_column_of_mem _ _ hswf hcolmem
    cases kc with
    | numerical =>
      obtain ⟨rows, hdata, hlen⟩ := wf_numerical_data col _ hcwf hcat
      rw [hdata] at hx
      simp only [rowLens] at hx
      rw [mergeGroup_data_numerical,
        zip_blocks_eq (fun s => columnLookup s kn ColumnTypeCategory.numerical)
          numericalBlock segments]
      simp only [rowLens]
      rw [map_concatRows, List.map_map]
      rw [mem_concatRows]
      refine ⟨List.map List.length
        (numericalBlock (segments.getD i dfltSegment)
          (columnLookup (segments.getD i dfltSegment) kn ColumnTypeCategory.numerical)),
        ?_, ?_⟩
      · exact List.mem_map.2 ⟨segments.getD i dfltSegment,
          getD_mem segments i dfltSegment hi, rfl⟩
      · rw [hlk]
        simp only [numericalBlock, hdata]
        rw [fitLength_eq_of_length _ _ hlen]
        exact hx
    | bytesCat =>
      obtain ⟨dc, rows, hdata, hlen⟩ := wf_dict_data_exists col _ hcwf (Or.inl hcat)
      rw [hdata] at hx
      simp only [rowLens] at hx
      rw [mergeGroup_data_bytes,
        zip_blocks_eq (fun s => columnLookup s kn ColumnTypeCategory.bytesCat)
          (dictBlock (mergedDictOf
            (segments.map fun s => columnLookup s kn ColumnTypeCategory.bytesCat)))
          segments]
      simp only [rowLens]
      rw [map_concatRows, List.map_map]
      rw [mem_concatRows]
      refine ⟨List.map List.length
        (dictBlock (mergedDictOf
            (segments.map fun s => columnLookup s kn ColumnTypeCategory.bytesCat))
          (segments.getD i dfltSegment)
          (columnLookup (segments.getD i dfltSegment) kn ColumnTypeCategory.bytesCat)),
        ?_, ?_⟩
      · exact List.mem_map.2 ⟨segments.getD i dfltSegment,
          getD_mem segments i dfltSegment hi, rfl⟩
      · rw [hlk]
        simp only [dictBlock, hdata]
        rw [fitLength_eq_of_length _ _ (by rw [List.length_map]; exact hlen)]
        rw [List.map_map]
        have hmap : (List.length ∘ fun row : List Nat => row.map fun o =>
            ordOf (mergedDictOf
              (segments.map fun s => columnLookup s kn ColumnTypeCategory.bytesCat))
              (dc.getD o [])) = List.length := by
          funext row
          simp
        rw [hmap]
        exact hx
    | strCat =>
      obtain ⟨dc, rows, hdata, hlen⟩ := wf_dict_data_exists col _ hcwf (Or.inr hcat)
      rw [hdata] at hx
      simp only [rowLens] at hx
      rw [mergeGroup_data_str,
        zip_blocks_eq (fun s => columnLookup s kn ColumnTypeCategory.strCat)
          (dictBlock (mergedDictOf
            (segments.map fun s => columnLookup s kn ColumnTypeCategory.strCat)))
          segments]
      simp only [rowLens]
      rw [map_concatRows, List.map_map]
      rw [mem_concatRows]
      refine ⟨List.map List.length
        (dictBlock (mergedDictOf
            (segments.map fun s => columnLookup s kn ColumnTypeCategory.strCat))
          (segments.getD i dfltSegment)
          (columnLookup (segments.getD i dfltSegment) kn ColumnTypeCategory.strCat)),
        ?_, ?_⟩
      · exact List.mem_map.2 ⟨segments.getD i dfltSegment,
          getD_mem segments i dfltSegment hi, rfl⟩
      · rw [hlk]
        simp only [dictBlock, hdata]
        rw [fitLength_eq_of_length _ _ (by rw [List.length_map]; exact hlen)]
        rw [List.map_map]
        have hmap : (List.length ∘ fun row : List Nat => row.map fun o =>
            ordOf (mergedDictOf
              (segments.map fun s => columnLookup s kn ColumnTypeCategory.strCat))
              (dc.getD o [])) = List.length := by
          funext row
          simp
        rw [hmap]
        exact hx
  · intro habs
    rw [mergeGroup_cardinality]
    apply optional_le_groupCardinality_of_absent
    show (segments.map fun s => columnLookup s kn kc).any (fun oc => oc.isNone) = true
    rw [List.any_eq_true]
    refine ⟨none, ?_, rfl⟩
    exact List.mem_map.2 ⟨segments.getD i dfltSegment,
      getD_mem segments i dfltSegment hi, habs⟩

/-- Witness for C5 at a merge where the text column "mixed" is absent from
the second (numeric) segment: the merged text column is at least Optional. -/
theorem cardinality_monotonicity_witness :
    segmentsWF [segT1, segM3] = true ∧
      merge_columnar [segT1, segM3] [] (.stackOrder (.stack [segT1, segM3]))
        = .ok (mergeOk [segT1, segM3] [] (.stackOrder (.stack [segT1, segM3]))) ∧
      (mergeOk [segT1, segM3] [] (.stackOrder (.stack [segT1, segM3]))).columns.getD 1
          dfltMergedColumn
        ∈ (mergeOk [segT1, segM3] [] (.stackOrder (.stack [segT1, segM3]))).columns ∧
      1 < ([segT1, segM3] : List Segment).length ∧
      ((∀ col, columnLookup (([segT1, segM3] : List Segment).getD 1 dfltSegment)
          ((mergeOk [segT1, segM3] []
            (.stackOrder (.stack [segT1, segM3]))).columns.getD 1 dfltMergedColumn).name
          ((mergeOk [segT1, segM3] []
            (.stackOrder (.stack [segT1, segM3]))).columns.getD 1 dfltMergedColumn).srcCat
            = some col →
        col.cardinality.scode ≤ ((mergeOk [segT1, segM3] []
          (.stackOrder (.stack [segT1, segM3]))).columns.getD 1
            dfltMergedColumn).cardinality.scode) ∧
      (columnLookup (([segT1, segM3] : List Segment).getD 1 dfltSegment)
          ((mergeOk [segT1, segM3] []
            (.stackOrder (.stack [segT1, segM3]))).columns.getD 1 dfltMergedColumn).name
          ((mergeOk [segT1, segM3] []
            (.stackOrder (.stack [segT1, segM3]))).columns.getD 1 dfltMergedColumn).srcCat
            = none →
        Cardinality.optional.scode ≤ ((mergeOk [segT1, segM3] []
          (.stackOrder (.stack [segT1, segM3]))).columns.getD 1
            dfltMergedColumn).cardinality.scode)) := by
  have hlen : (mergeOk [segT1, segM3] []
      (.stackOrder (.stack [segT1, segM3]))).columns.length = 2 := rfl
  exact ⟨by decide, rfl,
    getD_mem ((mergeOk [segT1, segM3] []
      (.stackOrder (.stack [segT1, segM3]))).columns) 1 dfltMergedColumn (by omega),
    by decide,
    cardinality_monotonicity [segT1, segM3] [] _ _ 1 (by decide) rfl
      (getD_mem ((mergeOk [segT1, segM3] []
        (.stackOrder (.stack [segT1, segM3]))).columns) 1 dfltMergedColumn (by omega))
      (by decide)⟩

/-- **C9.** Stack-merging segment A holding numeric column "n" = [-1] over
1 row with segment B holding "n" = [] then [-3] over 2 rows yields a 3-row
store whose merged "n" column has value -1 at row 0, no value at row 1,
value -3 at row 2, and cardinality Optional. -/
theorem end_to_end_numeric_scenario :
    ∃ st, merge_columnar [segN1, segN2] [] (.stackOrder (.stack [segN1, segN2]))
        = .ok st ∧
      st.numDocs = 3 ∧
      (st.readColumns "n").length = 1 ∧
      ∀ c ∈ st.readColumns "n",
        c.firstNum 0 = some (.nF64 (-1)) ∧
        c.firstNum 1 = none ∧
        c.firstNum 2 = some (.nF64 (-3)) ∧
        c.cardinality = .optional := by
  refine ⟨mergeOk [segN1, segN2] [] (.stackOrder (.stack [segN1, segN2])), rfl, ?_, ?_, ?_⟩
  · decide
  · decide
  · decide

/-- Under a segment's no-duplicate-keys invariant, collecting the numerical
values through the (first-match) column lookup agrees with collecting them
through filtering all matching columns. -/
theorem lookup_numValues (n : String) :
    ∀ cols : List Column,
      ((cols.map fun c => (c.name, c.ctype.category)).Pairwise (· ≠ ·)) →
      (match cols.find? (fun c => decide (c.name = n) &&
          decide (c.ctype.category = ColumnTypeCategory.numerical)) with
       | some c => c.numValues
       | none => []) =
      concatRows ((cols.filter fun c => decide (c.name = n) &&
          decide (c.ctype.category = ColumnTypeCategory.numerical)).map Column.numValues) := by
  intro cols
  induction cols with
  | nil => intro _; rfl
  | cons c rest ih =>
    intro hpw
    rw [List.map_cons, List.pairwise_cons] at hpw
    obtain ⟨hhead, htail⟩ := hpw
    by_cases hp : (decide (c.name = n) &&
        decide (c.ctype.category = ColumnTypeCategory.numerical)) = true
    · rw [@List.find?_cons_of_pos _ (fun c => decide (c.name = n) &&
          decide (c.ctype.category = ColumnTypeCategory.numerical)) c rest hp,
        @List.filter_cons_of_pos _ (fun c => decide (c.name = n) &&
          decide (c.ctype.category = ColumnTypeCategory.numerical)) c rest hp]
      have hnil : rest.filter (fun c => decide (c.name = n) &&
          decide (c.ctype.category = ColumnTypeCategory.numerical)) = [] := by
        rw [List.filter_eq_nil_iff]
        intro d hd hpd
        simp only [Bool.and_eq_true, decide_eq_true_eq] at hp hpd
        exact hhead (d.name, d.ctype.category) (List.mem_map.2 ⟨d, hd, rfl⟩)
          (by rw [hp.1, hp.2, hpd.1, hpd.2])
      rw [List.map_cons, concatRows, hnil]
      simp [concatRows]
    · rw [@List.find?_cons_of_neg _ (fun c => decide (c.name = n) &&
          decide (c.ctype.category = ColumnTypeCategory.numerical)) c rest hp,
        @List.filter_cons_of_neg _ (fun c => decide (c.name = n) &&
          decide (c.ctype.category = ColumnTypeCategory.numerical)) c rest hp]
      exact ih htail

theorem handleNumValues_eq (segments : List Segment) (n : String)
    (hwf : segmentsWF segments = true) :
    handleNumValues (segments.map fun s => columnLookup s n ColumnTypeCategory.numerical)
      = numericalValuesFor segments n := by
  unfold handleNumValues numericalValuesFor
  rw [List.map_map]
  congr 1
  apply List.map_congr_left
  intro s hs
  have hpw := wf_pairwise_keys s (wf_segment_of_mem segments s hwf hs)
  exact lookup_numValues n s.columns hpw

theorem mergeGroup_ctype_numerical (segments : List Segment) (n : String)
    (cols : List (Option Column)) :
    (mergeGroup segments (n, .numerical) { forced := none, columns := cols }).ctype
      = resolveNumerical (handleNumValues cols) := rfl

/-- **C2.** For every Numerical group merged without a required override, the
unified output representation is determined by the union of values actually
seen across contributing segments: i64 when every value fits i64, else u64
when every value fits u64, else f64. -/
theorem numerical_representation_from_values (segments : List Segment)
    (required : List (String × ColumnType)) (o : StackMergeOrder) (st : MergedStore)
    (n : String) (c : MergedColumn)
    (hwf : segmentsWF segments = true)
    (hm : merge_columnar segments required (.stackOrder o) = .ok st)
    (hc : c ∈ st.columns) (hname : c.name = n)
    (hnum : c.data.isNumericalKind = true)
    (hov : overrideFor required n = none) :
    c.ctype = (if ∀ v ∈ numericalValuesFor segments n, valueFitsI64 v = true then .i64
      else if ∀ v ∈ numericalValuesFor segments n, valueFitsU64 v = true then .u64
      else .f64) := by
  obtain ⟨-, rfl⟩ := merge_columnar_ok_elim segments required o st hm
  have hc' : c ∈ (mergeKeys segments required).map (fun k => mergeGroup segments k
      { forced := overrideFor required k.1,
        columns := segments.map fun s => columnLookup s k.1 k.2 }) := hc
  rw [List.mem_map] at hc'
  obtain ⟨k, hk, rfl⟩ := hc'
  obtain ⟨kn, kc⟩ := k
  rw [mergeGroup_name] at hname
  dsimp only at hname hnum ⊢
  rw [hname] at hnum ⊢
  cases kc with
  | bytesCat =>
    rw [mergeGroup_data_bytes] at hnum
    simp [ColumnData.isNumericalKind] at hnum
  | strCat =>
    rw [mergeGroup_data_str] at hnum
    simp [ColumnData.isNumericalKind] at hnum
  | numerical =>
    rw [hov]
    rw [mergeGroup_ctype_numerical]
    rw [handleNumValues_eq segments n hwf]
    unfold resolveNumerical
    by_cases h1 : ∀ v ∈ numericalValuesFor segments n, valueFitsI64 v = true
    · rw [if_pos (List.all_eq_true.2 h1), if_pos h1]
    · rw [if_neg (fun hb => h1 (List.all_eq_true.1 hb)), if_neg h1]
      by_cases h2 : ∀ v ∈ numericalValuesFor segments n, valueFitsU64 v = true
      · rw [if_pos (List.all_eq_true.2 h2), if_pos h2]
      · rw [if_neg (fun hb => h2 (List.all_eq_true.1 hb)), if_neg h2]

/-- Witness for C2: merging an i64 column holding 1 with a u64 column holding
u64::MAX yields the u64 representation. -/
theorem numerical_representation_from_values_witness :
    segmentsWF [segI, segU] = true ∧
      merge_columnar [segI, segU] [] (.stackOrder (.stack [segI, segU]))
        = .ok (mergeOk [segI, segU] [] (.stackOrder (.stack [segI, segU]))) ∧
      ((mergeOk [segI, segU] [] (.stackOrder (.stack [segI, segU]))).columns.getD 0
          dfltMergedColumn)
        ∈ (mergeOk [segI, segU] [] (.stackOrder (.stack [segI, segU]))).columns ∧
      ((mergeOk [segI, segU] [] (.stackOrder (.stack [segI, segU]))).columns.getD 0
          dfltMergedColumn).name = "numbers" ∧
      ((mergeOk [segI, segU] [] (.stackOrder (.stack [segI, segU]))).columns.getD 0
          dfltMergedColumn).data.isNumericalKind = true ∧
      overrideFor [] "numbers" = none ∧
      ((mergeOk [segI, segU] [] (.stackOrder (.stack [segI, segU]))).columns.getD 0
          dfltMergedColumn).ctype
        = (if ∀ v ∈ numericalValuesFor [segI, segU] "numbers", valueFitsI64 v = true
            then ColumnType.i64
          else if ∀ v ∈ numericalValuesFor [segI, segU] "numbers", valueFitsU64 v = true
            then ColumnType.u64
          else ColumnType.f64) := by
  have hlen : (mergeOk [segI, segU] []
      (.stackOrder (.stack [segI, segU]))).columns.length = 1 := rfl
  exact ⟨by decide, rfl,
    getD_mem ((mergeOk [segI, segU] []
      (.stackOrder (.stack [segI, segU]))).columns) 0 dfltMergedColumn (by omega),
    by decide, by decide, rfl,
    numerical_representation_from_values [segI, segU] [] _ _ "numbers" _ (by decide) rfl
      (getD_mem ((mergeOk [segI, segU] []
        (.stackOrder (.stack [segI, segU]))).columns) 0 dfltMergedColumn (by omega))
      (by decide) (by decide) rfl⟩

theorem mergedDict_strictSorted (cols : List (Option Column)) :
    strictSorted (mergedDictOf cols) = true :=
  strictSorted_of_pairwise _ (sorted_sortDedup byteLt byteLt_trans byteLt_conn _)

theorem mem_mergedDict (segments : List Segment) (n : String) (cat : ColumnTypeCategory)
    (t : ByteStr) :
    t ∈ mergedDictOf (segments.map fun s => columnLookup s n cat) ↔
      ∃ s ∈ segments, ∃ col, columnLookup s n cat = some col ∧ t ∈ col.dictTerms := by
  rw [mergedDictOf, mem_sortDedup, mem_concatRows, groupDicts, List.map_map]
  constructor
  · rintro ⟨l, hl, ht⟩
    rw [List.mem_map] at hl
    obtain ⟨s, hs, rfl⟩ := hl
    simp only [Function.comp] at ht
    cases hlk : columnLookup s n cat with
    | none =>
      rw [hlk] at ht
      cases ht
    | some col =>
      rw [hlk] at ht
      exact ⟨s, hs, col, hlk, ht⟩
  · rintro ⟨s, hs, col, hlk, ht⟩
    refine ⟨_, List.mem_map.2 ⟨s, hs, rfl⟩, ?_⟩
    simp only [Function.comp]
    rw [hlk]
    exact ht

theorem dict_rows_at (segments : List Segment) (n : String) (cat : ColumnTypeCategory)
    (dm : List ByteStr) (hwf : segmentsWF segments = true) (i : Nat)
    (hi : i < segments.length) (col : Column) (dc : List ByteStr)
    (drows : List (List Nat))
    (hlk : columnLookup (segments.getD i dfltSegment) n cat = some col)
    (hdc : col.data = .dictData dc drows) (r : Nat)
    (hr : r < (segments.getD i dfltSegment).numRows) :
    (concatRows (segments.map fun s => dictBlock dm s (columnLookup s n cat))).getD
        (offsetUpto segments i + r) []
      = (drows.getD r []).map fun o => ordOf dm (dc.getD o []) := by
  rw [stacked_getD (fun s => dictBlock dm s (columnLookup s n cat))
    (fun s => length_dictBlock dm s _) segments i r hi hr]
  rw [hlk]
  simp only [dictBlock, hdc]
  have hlen : drows.length = (segments.getD i dfltSegment).numRows :=
    wf_dict_data col _ dc drows
      (wf_column_of_mem _ _
        (wf_segment_of_mem segments _ hwf (getD_mem segments i dfltSegment hi))
        (columnLookup_eq_some _ _ _ _ hlk).1) hdc
  rw [fitLength_eq_of_length _ _ (by rw [List.length_map]; exact hlen)]
  exact getD_map_of_lt _ [] [] drows r (by omega)

/-- **C4.** For every merged String or Bytes column, the merged dictionary is
the deduplicated union of all contributing segments' terms sorted in ascending
byte-lexicographic order (ordinals 0..num_terms assigned in that order), each
row's term references are remapped from old per-segment ordinals to the new
shared ordinals, and re-running the merge on the same inputs yields identical
ordinals. -/
theorem dictionary_merge_deterministic (segments : List Segment)
    (required : List (String × ColumnType)) (o : StackMergeOrder) (st : MergedStore)
    (n : String) (c : MergedColumn) (d : List ByteStr) (rows : List (List Nat))
    (hwf : segmentsWF segments = true)
    (hm : merge_columnar segments required (.stackOrder o) = .ok st)
    (hc : c ∈ st.columns) (hname : c.name = n)
    (hdata : c.data = .dictData d rows) :
    strictSorted d = true ∧
      (∀ t, t ∈ d ↔ ∃ s ∈ segments, ∃ col, columnLookup s n c.srcCat = some col ∧
        t ∈ col.dictTerms) ∧
      (∀ i, i < segments.length →
        ∀ col dc drows, columnLookup (segments.getD i dfltSegment) n c.srcCat = some col →
          col.data = .dictData dc drows →
          ∀ r, r < (segments.getD i dfltSegment).numRows →
            rows.getD (offsetUpto segments i + r) []
              = (drows.getD r []).map fun o => ordOf d (dc.getD o [])) ∧
      merge_columnar segments required (.stackOrder o)
        = merge_columnar segments required (.stackOrder o) := by
  obtain ⟨-, rfl⟩ := merge_columnar_ok_elim segments required o st hm
  have hc' : c ∈ (mergeKeys segments required).map (fun k => mergeGroup segments k
      { forced := overrideFor required k.1,
        columns := segments.map fun s => columnLookup s k.1 k.2 }) := hc
  rw [List.mem_map] at hc'
  obtain ⟨k, hk, rfl⟩ := hc'
  obtain ⟨kn, kc⟩ := k
  rw [mergeGroup_name] at hname
  dsimp only at hname hdata ⊢
  rw [hname] at hdata ⊢
  rw [mergeGroup_srcCat]
  dsimp only
  cases kc with
  | numerical =>
    rw [mergeGroup_data_numerical] at hdata
    cases hdata
  | bytesCat =>
    rw [mergeGroup_data_bytes] at hdata
    injection hdata with h1 h2
    subst h1
    subst h2
    refine ⟨mergedDict_strictSorted _, fun t => mem_mergedDict segments n .bytesCat t, ?_, rfl⟩
    rw [zip_blocks_eq (fun s => columnLookup s n ColumnTypeCategory.bytesCat)
      (dictBlock (mergedDictOf (segments.map fun s =>
        columnLookup s n ColumnTypeCategory.bytesCat))) segments]
    intro i hi col dc drows hlk hdc r hr
    exact dict_rows_at segments n .bytesCat _ hwf i hi col dc drows hlk hdc r hr
  | strCat =>
    rw [mergeGroup_data_str] at hdata
    injection hdata with h1 h2
    subst h1
    subst h2
    refine ⟨mergedDict_strictSorted _, fun t => mem_mergedDict segments n .strCat t, ?_, rfl⟩
    rw [zip_blocks_eq (fun s => columnLookup s n ColumnTypeCategory.strCat)
      (dictBlock (mergedDictOf (segments.map fun s =>
        columnLookup s n ColumnTypeCategory.strCat))) segments]
    intro i hi col dc drows hlk hdc r hr
    exact dict_rows_at segments n .strCat _ hwf i hi col dc drows hlk hdc r hr

/-- Witness for C4 at the two-segment bytes scenario: dictionary
["a", "baaa", "bbbb"] with remapped row ordinals. -/
theorem dictionary_merge_deterministic_witness :
    segmentsWF [segB1, segB2] = true ∧
      merge_columnar [segB1, segB2] [] (.stackOrder (.stack [segB1, segB2]))
        = .ok (mergeOk [segB1, segB2] [] (.stackOrder (.stack [segB1, segB2]))) ∧
      ((mergeOk [segB1, segB2] [] (.stackOrder (.stack [segB1, segB2]))).columns.getD 0
          dfltMergedColumn)
        ∈ (mergeOk [segB1, segB2] [] (.stackOrder (.stack [segB1, segB2]))).columns ∧
      ((mergeOk [segB1, segB2] [] (.stackOrder (.stack [segB1, segB2]))).columns.getD 0
          dfltMergedColumn).name = "bytes" ∧
      ((mergeOk [segB1, segB2] [] (.stackOrder (.stack [segB1, segB2]))).columns.getD 0
          dfltMergedColumn).data
        = .dictData [[97], [98, 97, 97, 97], [98, 98, 98, 98]] [[2], [1], [], [0]] ∧
      (strictSorted [[97], [98, 97, 97, 97], [98, 98, 98, 98]] = true ∧
        (∀ t, t ∈ ([[97], [98, 97, 97, 97], [98, 98, 98, 98]] : List ByteStr) ↔
          ∃ s ∈ ([segB1, segB2] : List Segment), ∃ col,
            columnLookup s "bytes"
              ((mergeOk [segB1, segB2] []
                (.stackOrder (.stack [segB1, segB2]))).columns.getD 0
                  dfltMergedColumn).srcCat = some col ∧
            t ∈ col.dictTerms) ∧
        (∀ i, i < ([segB1, segB2] : List Segment).length →
          ∀ col dc drows,
            columnLookup (([segB1, segB2] : List Segment).getD i dfltSegment) "bytes"
              ((mergeOk [segB1, segB2] []
                (.stackOrder (.stack [segB1, segB2]))).columns.getD 0
                  dfltMergedColumn).srcCat = some col →
            col.data = .dictData dc drows →
            ∀ r, r < (([segB1, segB2] : List Segment).getD i dfltSegment).numRows →
              ([[2], [1], [], [0]] : List (List Nat)).getD
                  (offsetUpto [segB1, segB2] i + r) []
                = (drows.getD r []).map fun o =>
                    ordOf [[97], [98, 97, 97, 97], [98, 98, 98, 98]] (dc.getD o [])) ∧
        merge_columnar [segB1, segB2] [] (.stackOrder (.stack [segB1, segB2]))
          = merge_columnar [segB1, segB2] [] (.stackOrder (.stack [segB1, segB2]))) := by
  have hlen : (mergeOk [segB1, segB2] []
      (.stackOrder (.stack [segB1, segB2]))).columns.length = 1 := rfl
  refine ⟨by decide, rfl,
    getD_mem ((mergeOk [segB1, segB2] []
      (.stackOrder (.stack [segB1, segB2]))).columns) 0 dfltMergedColumn (by omega),
    by decide, by decide, ?_⟩
  exact dictionary_merge_deterministic [segB1, segB2] [] _ _ "bytes" _
    [[97], [98, 97, 97, 97], [98, 98, 98, 98]] [[2], [1], [], [0]]
    (by decide) rfl
    (getD_mem ((mergeOk [segB1, segB2] []
      (.stackOrder (.stack [segB1, segB2]))).columns) 0 dfltMergedColumn (by omega))
    (by decide) (by decide)

end ColumnarMerge
